import Mathlib

/-!
Shallow embedding of `src/query_opt/code/parse_and_evaluate.py`.

Python strings are modelled as `List Char`.  Every Python string operation the
source uses (`str.strip`, `str.split`, `str.join`, `str.replace`, the two
regular expressions of `_clean_response` / `_replace_quotes`, and `json.loads`)
is given an explicit executable model below.  The character classes
(whitespace, `\w`, digits) are modelled on their ASCII part; the inputs the
program is designed for are ASCII apart from the mis-encoded curly-quote byte
sequences, which are carried verbatim.
-/

/-- Convert a Lean string literal to the `List Char` representation used for
Python strings throughout this file. -/
def cs (s : String) : List Char := s.data

/-- The apostrophe character (written via its code point). -/
def apos : Char := Char.ofNat 39

/-- The opening curly brace character. -/
def obr : Char := Char.ofNat 123

/-- The closing curly brace character. -/
def cbr : Char := Char.ofNat 125

/-- Python `str.strip` whitespace set (ASCII part: space, tab, newline,
carriage return, vertical tab, form feed). -/
def isPySpace (c : Char) : Bool :=
  c = ' ' || c = '\t' || c = '\n' || c = '\r' || c = Char.ofNat 11 || c = Char.ofNat 12

/-- Python `str.strip`: remove whitespace from both ends. -/
def pyStrip (l : List Char) : List Char :=
  ((l.dropWhile isPySpace).reverse.dropWhile isPySpace).reverse

/-- Boolean prefix test on character lists. -/
def lpre : List Char → List Char → Bool
  | [], _ => true
  | _ :: _, [] => false
  | a :: as, b :: bs => if a = b then lpre as bs else false

/-- Boolean substring test (`pat in l` for a nonempty `pat`). -/
def hasSub (pat : List Char) : List Char → Bool
  | [] => lpre pat []
  | c :: rest => lpre pat (c :: rest) || hasSub pat rest

/-- Boolean membership test for a single character. -/
def hasChar (c : Char) : List Char → Bool
  | [] => false
  | x :: rest => x = c || hasChar c rest

/-- Worker for `splitOnSub`: Python `str.split(pat)` for nonempty `pat`,
scanning left to right; the `Nat` argument skips the remaining characters of a
match that was already consumed. -/
def splitOnSubAux (pat : List Char) : Nat → List Char → List (List Char)
  | _, [] => [[]]
  | k + 1, _ :: rest => splitOnSubAux pat k rest
  | 0, c :: rest =>
    if lpre pat (c :: rest) then
      [] :: splitOnSubAux pat (pat.length - 1) rest
    else
      match splitOnSubAux pat 0 rest with
      | [] => [[c]]
      | p :: ps => (c :: p) :: ps

/-- Python `str.split(pat)` on all occurrences (the source never splits on an
empty separator; the guard only keeps the model total). -/
def splitOnSub (pat l : List Char) : List (List Char) :=
  if pat = [] then [l] else splitOnSubAux pat 0 l

/-- Python `sep.join(parts)`. -/
def joinWith (sep : List Char) : List (List Char) → List Char
  | [] => []
  | [x] => x
  | x :: y :: ys => x ++ sep ++ joinWith sep (y :: ys)

/-- Python `parts[-1]` on the (never empty) result of `str.split`. -/
def lastPart (xs : List (List Char)) : List Char := xs.getLastD []

/-- Worker for `replaceSub`: Python `str.replace(pat, rep)` for nonempty
`pat`, scanning left to right; the `Nat` argument skips the remaining
characters of a match that was already consumed. -/
def replaceSubAux (pat rep : List Char) : Nat → List Char → List Char
  | _, [] => []
  | k + 1, _ :: rest => replaceSubAux pat rep k rest
  | 0, c :: rest =>
    if lpre pat (c :: rest) then
      rep ++ replaceSubAux pat rep (pat.length - 1) rest
    else
      c :: replaceSubAux pat rep 0 rest

/-- Python `str.replace(pat, rep)` (the source never replaces an empty
pattern; the guard only keeps the model total). -/
def replaceSub (pat rep l : List Char) : List Char :=
  if pat = [] then l else replaceSubAux pat rep 0 l

/-- Python `str.split(c, 1)`: split at the first occurrence only, returning
`none` when the character is absent (in the source this models the
`len(parts) > 1` test). -/
def splitFirstChar (c : Char) : List Char → Option (List Char × List Char)
  | [] => none
  | x :: rest =>
    if x = c then some ([], rest)
    else (splitFirstChar c rest).map fun p => (x :: p.1, p.2)

/-- Python regex `\w` (ASCII part): letters, digits, underscore. -/
def isWordChar (c : Char) : Bool := c.isAlphanum || c = '_'

/-- The character class `[\w-]` of `_replace_quotes`. -/
def isWordHyphen (c : Char) : Bool := isWordChar c || c = '-'

/-- The literal key `query` of `_replace_quotes`. -/
def keyQuery : List Char := cs "query"

/-- The literal key `summary` of `_replace_quotes`. -/
def keySummary : List Char := cs "summary"

/-- One alternative `pre\b` of the negative lookahead of `_replace_quotes`,
evaluated at text `t`: `pre` must be present and be followed by a non-word
character or the end of the text. -/
def blockedBy (pre t : List Char) : Bool :=
  lpre pre t &&
    (match (t.drop pre.length).head? with
     | some c => !isWordChar c
     | none => true)

/-- The negative lookahead `(?!query\b|summary\b)` of `_replace_quotes`. -/
def qsLookahead (t : List Char) : Bool := blockedBy keyQuery t || blockedBy keySummary t

/-- Attempt to match the regex `"(\b(?!query\b|summary\b)[\w-]+\b)"` of
`_replace_quotes` at the position of `c :: rest`, returning the captured word.
The greedy `[\w-]+` takes the maximal run; backtracking cannot produce a
shorter match because any shorter candidate is followed by a `[\w-]` character
which is not the required closing double quote, so only the maximal run is
tested, with the final `\b` demanding its last character be a word
character.  `matchWordTail` runs the checks after the greedy run has been
taken. -/
def matchWordTail (w t : List Char) : Option (List Char) :=
  match w with
  | [] => none
  | c0 :: w' =>
    if !isWordChar c0 then none
    else if qsLookahead t then none
    else
      match t.drop (c0 :: w').length with
      | q :: _ =>
        if q = '"' ∧ isWordChar ((c0 :: w').getLastD 'a') then some (c0 :: w')
        else none
      | [] => none

/-- Attempt the match of the regex at the position of `c :: rest` proper. -/
def matchWordAt (c : Char) (rest : List Char) : Option (List Char) :=
  if c = '"' then matchWordTail (rest.takeWhile isWordHyphen) rest else none

/-- The replacer of `_replace_quotes`: the full match is `"w"`; keys `query`
and `summary` are kept, every other match gets its double quotes turned into
single quotes. -/
def quoteResult (w : List Char) : List Char :=
  if w = keyQuery ∨ w = keySummary then '"' :: w ++ ['"']
  else apos :: w ++ [apos]

/-- Worker for `replaceQuotes`: the `re.sub` scan; the `Nat` argument skips
the remaining characters of a match that was already consumed. -/
def replaceQuotesAux : Nat → List Char → List Char
  | _, [] => []
  | k + 1, _ :: rest => replaceQuotesAux k rest
  | 0, c :: rest =>
    match matchWordAt c rest with
    | some w => quoteResult w ++ replaceQuotesAux (w.length + 1) rest
    | none => c :: replaceQuotesAux 0 rest

/-- The `_replace_quotes` static method. -/
def replaceQuotes (l : List Char) : List Char := replaceQuotesAux 0 l

/-- Python regex `\s` (ASCII part), used by the `}(?=\s*{)` rule. -/
def isReSpace (c : Char) : Bool :=
  c = ' ' || c = '\t' || c = '\n' || c = '\r' || c = Char.ofNat 11 || c = Char.ofNat 12

/-- The rule `re.sub(r'}(?=\s*{)', '},', response)`: every closing brace that
is followed (through whitespace) by an opening brace gets a comma appended;
the lookahead consumes nothing. -/
def braceComma : List Char → List Char
  | [] => []
  | c :: rest =>
    if c = cbr ∧ (rest.dropWhile isReSpace).head? = some obr then
      c :: ',' :: braceComma rest
    else
      c :: braceComma rest

/-- The instruction-termination marker `[/INST]`. -/
def instTok : List Char := cs "[/INST]"

/-- The transcript-end marker. -/
def transcriptTok : List Char := cs "#Transcript End"

/-- The malformed closing token `[ / JSONObjects]`. -/
def jsonObjectsTok : List Char := cs "[ / JSONObjects]"

/-- The plain code fence. -/
def fenceTok : List Char := cs "```"

/-- The language-tagged code fence. -/
def fenceJsonTok : List Char := cs "```json"

/-- The mis-encoded curly opening quote byte sequence. -/
def curlyTokA : List Char := cs "â€˜"

/-- The mis-encoded curly double-quote byte sequence. -/
def curlyTokB : List Char := cs "â€œ"

/-- Steps `strip` and `split('[/INST]')[-1]` of `_clean_response`. -/
def afterInst (s : List Char) : List Char := lastPart (splitOnSub instTok (pyStrip s))

/-- Step `'[' + ('[').join(response.split('[')[1:])` of `_clean_response`. -/
def reconstructBracket (s : List Char) : List Char :=
  '[' :: joinWith ['['] (List.drop 1 (splitOnSub ['['] (afterInst s)))

/-- The colon-wrapper / prepend-bracket branch of `_clean_response` (the
`response[0]` access is guarded in `cleanResponse`; on `[]` this returns its
argument, a case `cleanResponse` never reaches). -/
def branchStage (r : List Char) : List Char :=
  match r with
  | [] => r
  | c0 :: _ =>
    if c0 ≠ '[' ∧ hasChar ':' r then
      match splitFirstChar ':' r with
      | some p => pyStrip p.2
      | none => r
    else if c0 ≠ '[' then '[' :: pyStrip r
    else r

/-- The middle replacement chain of `_clean_response`, in source order:
newlines to spaces, `,"` to `,`, `_replace_quotes`, both code-fence removals,
apostrophes and curly-quote sequences and the `[ / JSONObjects]` token to
spaces, and the brace-comma regex. -/
def midStages (r : List Char) : List Char :=
  braceComma
    (replaceSub jsonObjectsTok (cs " ")
      (replaceSub curlyTokB (cs " ")
        (replaceSub curlyTokA (cs " ")
          (replaceSub [apos] (cs " ")
            (replaceSub fenceJsonTok []
              (replaceSub fenceTok []
                (replaceQuotes
                  (replaceSub [',', '"'] [',']
                    (replaceSub ['\n'] [' '] r)))))))))

/-- Step `split('#Transcript End')[-1].strip()` of `_clean_response`. -/
def transcriptStage (r : List Char) : List Char :=
  pyStrip (lastPart (splitOnSub transcriptTok r))

/-- The string `_clean_response` holds when it reaches the final
`response[-1]` check. -/
def preFinal (s : List Char) : List Char :=
  transcriptStage (midStages (branchStage (reconstructBracket s)))

/-- Step `(']').join(response.split(']')[:-1]) + ']'` of `_clean_response`. -/
def closeFix (r : List Char) : List Char :=
  joinWith [']'] (List.dropLast (splitOnSub [']'] r)) ++ [']']

/-- The final `if response[-1] != ']'` check of `_clean_response`; `none`
models the uncaught `IndexError` of `response[-1]` on an empty string. -/
def finalStage (r : List Char) : Option (List Char) :=
  match r.getLast? with
  | none => none
  | some cl => some (if cl = ']' then r else closeFix r)

/-- The `_clean_response` static method.  `none` models an uncaught
`IndexError`: `response[0]` on an empty string after bracket reconstruction
(unreachable, the reconstruction prepends a bracket) or `response[-1]` on an
empty string after the transcript-end split. -/
def cleanResponse (s : List Char) : Option (List Char) :=
  match reconstructBracket s with
  | [] => none
  | _ :: _ => finalStage (preFinal s)

/-- JSON values as produced by `json.loads`.  Numbers keep their lexeme: no
claim depends on numeric values, only on parse success and on `str()` of
parsed values, and for integers the lexeme is that `str()`. -/
inductive JValue where
  | jnull
  | jbool (b : Bool)
  | jnum (lexeme : List Char)
  | jstr (s : List Char)
  | jarr (items : List JValue)
  | jobj (fields : List (List Char × JValue))

/-- JSON inter-token whitespace accepted by `json.loads`. -/
def isJsonWs (c : Char) : Bool := c = ' ' || c = '\t' || c = '\n' || c = '\r'

/-- Value of one hexadecimal digit. -/
def hexVal (c : Char) : Option Nat :=
  if '0' ≤ c ∧ c ≤ '9' then some (c.toNat - 48)
  else if 'a' ≤ c ∧ c ≤ 'f' then some (c.toNat - 87)
  else if 'A' ≤ c ∧ c ≤ 'F' then some (c.toNat - 55)
  else none

/-- Single-character JSON string escapes. -/
def escChar (e : Char) : Option Char :=
  if e = '"' then some '"'
  else if e = '\\' then some '\\'
  else if e = '/' then some '/'
  else if e = 'b' then some (Char.ofNat 8)
  else if e = 'f' then some (Char.ofNat 12)
  else if e = 'n' then some '\n'
  else if e = 'r' then some '\r'
  else if e = 't' then some '\t'
  else none

/-- JSON string body after the opening quote, in the default strict mode of
`json.loads`: raw control characters are rejected, the listed escapes and
`\uXXXX` are decoded (surrogate pairing is not modelled; a lone surrogate
code point maps through `Char.ofNat` to NUL). -/
def parseJStringBody : List Char → Option (List Char × List Char)
  | [] => none
  | c :: rest =>
    if c = '"' then some ([], rest)
    else if c = '\\' then
      match rest with
      | 'u' :: h1 :: h2 :: h3 :: h4 :: rest2 =>
        match hexVal h1, hexVal h2, hexVal h3, hexVal h4 with
        | some a, some b, some c2, some d =>
          (parseJStringBody rest2).map fun p =>
            (Char.ofNat (((a * 16 + b) * 16 + c2) * 16 + d) :: p.1, p.2)
        | _, _, _, _ => none
      | e :: rest2 =>
        match escChar e with
        | some ch => (parseJStringBody rest2).map fun p => (ch :: p.1, p.2)
        | none => none
      | [] => none
    else if c.toNat < 32 then none
    else (parseJStringBody rest).map fun p => (c :: p.1, p.2)

/-- Integer part of the JSON number regex `(0|[1-9]\d*)`. -/
def parseIntPart : List Char → Option (List Char × List Char)
  | [] => none
  | '0' :: rest => some (['0'], rest)
  | c :: rest =>
    if c.isDigit then some (c :: rest.takeWhile Char.isDigit, rest.dropWhile Char.isDigit)
    else none

/-- Optional fraction group `(\.\d+)?` of the JSON number regex; when the
group cannot match it is skipped (Python then reports trailing data
later). -/
def parseFrac (l : List Char) : List Char × List Char :=
  match l with
  | '.' :: rest =>
    match rest.takeWhile Char.isDigit with
    | [] => ([], l)
    | ds => ('.' :: ds, rest.dropWhile Char.isDigit)
  | _ => ([], l)

/-- Optional exponent group `([eE][-+]?\d+)?` of the JSON number regex. -/
def parseExp (l : List Char) : List Char × List Char :=
  match l with
  | c :: rest =>
    if c = 'e' ∨ c = 'E' then
      match rest with
      | s :: rest2 =>
        if s = '+' ∨ s = '-' then
          match rest2.takeWhile Char.isDigit with
          | [] => ([], l)
          | ds => (c :: s :: ds, rest2.dropWhile Char.isDigit)
        else
          match rest.takeWhile Char.isDigit with
          | [] => ([], l)
          | ds => (c :: ds, rest.dropWhile Char.isDigit)
      | [] => ([], l)
    else ([], l)
  | [] => ([], [])

/-- JSON number: `-?(0|[1-9]\d*)(\.\d+)?([eE][-+]?\d+)?`, returned as its
lexeme. -/
def parseNumber (l : List Char) : Option (List Char × List Char) :=
  match l with
  | '-' :: rest =>
    match parseIntPart rest with
    | none => none
    | some (ip, r1) =>
      match parseFrac r1 with
      | (fp, r2) =>
        match parseExp r2 with
        | (ep, r3) => some ('-' :: (ip ++ fp ++ ep), r3)
  | _ =>
    match parseIntPart l with
    | none => none
    | some (ip, r1) =>
      match parseFrac r1 with
      | (fp, r2) =>
        match parseExp r2 with
        | (ep, r3) => some (ip ++ fp ++ ep, r3)

mutual

/-- One JSON value (with leading whitespace), in the default mode of
`json.loads`, which also accepts `NaN`, `Infinity` and `-Infinity`.  The fuel
only bounds nesting depth, mirroring Python's recursion limit; `pyJsonLoads`
supplies more than enough for every physically representable input. -/
def parseValue : Nat → List Char → Option (JValue × List Char)
  | 0, _ => none
  | fuel + 1, l =>
    match l.dropWhile isJsonWs with
    | [] => none
    | c :: rest =>
      if c = '"' then (parseJStringBody rest).map fun p => (.jstr p.1, p.2)
      else if c = obr then
        match rest.dropWhile isJsonWs with
        | c2 :: rest2 =>
          if c2 = cbr then some (.jobj [], rest2) else parseObjFields fuel rest []
        | [] => none
      else if c = '[' then
        match rest.dropWhile isJsonWs with
        | ']' :: rest2 => some (.jarr [], rest2)
        | _ => parseArrItems fuel rest []
      else if lpre (cs "true") (c :: rest) then some (.jbool true, (c :: rest).drop 4)
      else if lpre (cs "false") (c :: rest) then some (.jbool false, (c :: rest).drop 5)
      else if lpre (cs "null") (c :: rest) then some (.jnull, (c :: rest).drop 4)
      else if lpre (cs "NaN") (c :: rest) then some (.jnum (cs "NaN"), (c :: rest).drop 3)
      else if lpre (cs "Infinity") (c :: rest) then
        some (.jnum (cs "Infinity"), (c :: rest).drop 8)
      else if lpre (cs "-Infinity") (c :: rest) then
        some (.jnum (cs "-Infinity"), (c :: rest).drop 9)
      else (parseNumber (c :: rest)).map fun p => (.jnum p.1, p.2)

/-- Array elements after `[` (or after a comma); a trailing comma is a parse
error, as in `json.loads`. -/
def parseArrItems : Nat → List Char → List JValue → Option (JValue × List Char)
  | 0, _, _ => none
  | fuel + 1, l, acc =>
    match parseValue fuel l with
    | none => none
    | some (v, r1) =>
      match r1.dropWhile isJsonWs with
      | ']' :: rest => some (.jarr (acc ++ [v]), rest)
      | ',' :: rest => parseArrItems fuel rest (acc ++ [v])
      | _ => none

/-- Object fields after `{` (or after a comma): string key, colon, value. -/
def parseObjFields : Nat → List Char → List (List Char × JValue) →
    Option (JValue × List Char)
  | 0, _, _ => none
  | fuel + 1, l, acc =>
    match l.dropWhile isJsonWs with
    | '"' :: rest =>
      match parseJStringBody rest with
      | none => none
      | some (key, r1) =>
        match r1.dropWhile isJsonWs with
        | ':' :: r2 =>
          match parseValue fuel r2 with
          | none => none
          | some (v, r3) =>
            match r3.dropWhile isJsonWs with
            | ',' :: r4 => parseObjFields fuel r4 (acc ++ [(key, v)])
            | c :: r5 => if c = cbr then some (.jobj (acc ++ [(key, v)]), r5) else none
            | [] => none
        | _ => none
    | _ => none

end

/-- Python `json.loads`: parse one document, allowing surrounding
whitespace and nothing else.  `none` models `json.JSONDecodeError`. -/
def pyJsonLoads (l : List Char) : Option JValue :=
  match parseValue (3 * l.length + 3) l with
  | some (v, rest) => if rest.dropWhile isJsonWs = [] then some v else none
  | none => none

/-- Python `dict` lookup on parsed object fields: a later duplicate key
overwrites an earlier one, so the last binding wins. -/
def dictLookup : List (List Char × JValue) → List Char → Option JValue
  | [], _ => none
  | (k, v) :: rest, key =>
    match dictLookup rest key with
    | some r => some r
    | none => if k = key then some v else none

mutual

/-- Python `repr` of a parsed JSON value (used by `str()` on non-string
values).  `repr` of a Python string is modelled with plain single-quote
quoting, and of a float by its lexeme; no claim depends on these strings. -/
def pyRepr : JValue → List Char
  | .jnull => cs "None"
  | .jbool true => cs "True"
  | .jbool false => cs "False"
  | .jnum lex => lex
  | .jstr s => apos :: s ++ [apos]
  | .jarr items => '[' :: pyReprList items ++ [']']
  | .jobj fields => obr :: pyReprFields fields ++ [cbr]

/-- Comma-separated `repr` of list elements. -/
def pyReprList : List JValue → List Char
  | [] => []
  | [v] => pyRepr v
  | v :: w :: rest => pyRepr v ++ cs ", " ++ pyReprList (w :: rest)

/-- Comma-separated `repr` of dict entries. -/
def pyReprFields : List (List Char × JValue) → List Char
  | [] => []
  | [(k, v)] => (apos :: k ++ [apos]) ++ cs ": " ++ pyRepr v
  | (k, v) :: f :: rest =>
    (apos :: k ++ [apos]) ++ cs ": " ++ pyRepr v ++ cs ", " ++ pyReprFields (f :: rest)

end

/-- Python `str()` of a parsed JSON value. -/
def pyStr : JValue → List Char
  | .jstr s => s
  | v => pyRepr v

/-- The uncaught Python exceptions `_process_row` can raise. -/
inductive PyError where
  | jsonDecodeError
  | keyError
  | typeError
  | attributeError
  | indexError
deriving DecidableEq

/-- One CSV row: the `reference` column and the `summary` column (the latter
holds the raw model response; `str()` of a string field is the identity). -/
structure Row where
  reference : List Char
  summary : List Char

/-- The cumulative per-file state: the three aligned lists and the two
counters of `evaluate_file` (the source keeps the counters in
`evaluate_file` and returns increments from `_process_row`; folding them into
one state is observationally identical). -/
structure BatchState where
  queries : List (List Char)
  references : List JValue
  predictions : List (List Char)
  matched : Nat
  unmatched : Nat

/-- Python iteration over a parsed JSON value, as used by both
`for item in json_references` and `enumerate(json_predictions)`: a list
yields its items, a dict its keys, a string its characters; numbers, booleans
and `None` raise `TypeError`. -/
def pyIterate : JValue → Except PyError (List JValue)
  | .jarr items => .ok items
  | .jobj fields => .ok (fields.map fun p => .jstr p.1)
  | .jstr s => .ok (s.map fun c => .jstr [c])
  | _ => .error .typeError

/-- The reference loop body on a dict item: `item['query'].strip()` (a
missing key raises `KeyError`, a non-string value has no `.strip` and raises
`AttributeError`), then `item['summary']` appended unchanged. -/
def refObjExtract (fields : List (List Char × JValue)) :
    Except PyError (List Char × JValue) :=
  match dictLookup fields keyQuery with
  | none => .error .keyError
  | some (.jstr q) =>
    match dictLookup fields keySummary with
    | none => .error .keyError
    | some sv => .ok (pyStrip q, sv)
  | some _ => .error .attributeError

/-- The reference loop body: a non-dict item raises `TypeError` at
`item['query']`. -/
def refItemExtract : JValue → Except PyError (List Char × JValue)
  | .jobj fields => refObjExtract fields
  | _ => .error .typeError

/-- The reference loop over all items; the first failing item raises.  The
partial list appends Python performs before raising are unobservable because
the exception aborts the whole run. -/
def extractRefItems : List JValue → Except PyError (List (List Char × JValue))
  | [] => .ok []
  | it :: rest =>
    match refItemExtract it with
    | .error e => .error e
    | .ok p =>
      match extractRefItems rest with
      | .error e => .error e
      | .ok ps => .ok (p :: ps)

/-- The (query, summary) pairs extracted from the parsed reference value. -/
def refPairs (v : JValue) : Except PyError (List (List Char × JValue)) :=
  match pyIterate v with
  | .error e => .error e
  | .ok items => extractRefItems items

/-- One prediction entry: `str(item['summary'])`, where the inner bare
`except` maps any failure (missing key, non-dict item) to `''`. -/
def predOfItem (e : JValue) : List Char :=
  match e with
  | .jobj fields =>
    match dictLookup fields keySummary with
    | some v => pyStr v
    | none => []
  | _ => []

/-- The prediction loop `for index, item in enumerate(json_predictions)` with
the `index < len(json_references)` bound `n`. -/
def extractLoop (n : Nat) : List JValue → Nat → List (List Char)
  | [], _ => []
  | e :: rest, idx =>
    if idx < n then predOfItem e :: extractLoop n rest (idx + 1)
    else extractLoop n rest (idx + 1)

/-- The padding loop `while len(predictions) < len(queries)`. -/
def padTo (target : Nat) (preds : List (List Char)) : List (List Char) :=
  preds ++ List.replicate (target - preds.length) []

/-- Stage of `_process_row` after the response parsed: the prediction loop
(`enumerate` raises `TypeError` on a non-iterable value, uncaught because the
outer `except` only catches `json.JSONDecodeError`), then padding. -/
def matchedStage (st : BatchState) (pairs : List (List Char × JValue)) (pv : JValue) :
    Except PyError BatchState :=
  match pyIterate pv with
  | .error e => .error e
  | .ok elems =>
    .ok ⟨st.queries ++ pairs.map Prod.fst,
         st.references ++ pairs.map Prod.snd,
         padTo (st.queries ++ pairs.map Prod.fst).length
           (st.predictions ++ extractLoop pairs.length elems 0),
         st.matched + 1, st.unmatched⟩

/-- Stage of `_process_row` holding the cleaned response: `json.loads` either
fails (caught: the record counts as unmatched, only padding happens) or its
value is extracted from. -/
def parsedStage (st : BatchState) (pairs : List (List Char × JValue)) (resp : List Char) :
    Except PyError BatchState :=
  match pyJsonLoads resp with
  | none =>
    .ok ⟨st.queries ++ pairs.map Prod.fst,
         st.references ++ pairs.map Prod.snd,
         padTo (st.queries ++ pairs.map Prod.fst).length st.predictions,
         st.matched, st.unmatched + 1⟩
  | some pv => matchedStage st pairs pv

/-- Stage of `_process_row` holding the reference pairs: clean the response
(`IndexError` propagates) and continue. -/
def pairsStage (row : Row) (st : BatchState) (pairs : List (List Char × JValue)) :
    Except PyError BatchState :=
  match cleanResponse row.summary with
  | none => .error .indexError
  | some resp => parsedStage st pairs resp

/-- Stage of `_process_row` holding the parsed reference value: run the
reference loop (shape errors propagate) and continue. -/
def refStage (row : Row) (st : BatchState) (refVal : JValue) : Except PyError BatchState :=
  match refPairs refVal with
  | .error e => .error e
  | .ok pairs => pairsStage row st pairs

/-- The `_process_row` method.  Reference parsing and shape errors and the
normalizer's `IndexError` propagate; a `json.JSONDecodeError` on the cleaned
response is caught and counted as unmatched. -/
def process_row (row : Row) (st : BatchState) : Except PyError BatchState :=
  match pyJsonLoads row.reference with
  | none => .error .jsonDecodeError
  | some refVal => refStage row st refVal

/-- The row loop of `evaluate_file`. -/
def processRows : List Row → BatchState → Except PyError BatchState
  | [], st => .ok st
  | r :: rs, st =>
    match process_row r st with
    | .error e => .error e
    | .ok st2 => processRows rs st2

/-- The empty per-file state. -/
def initState : BatchState := ⟨[], [], [], 0, 0⟩

/-- The printed outcome of `evaluate_file`: either the no-rows notice (no
scorer is invoked) or the format-following accuracy together with the
prediction/reference lists that are handed to the ROUGE and BERTScore
scorers. -/
inductive FileReport where
  | noRows
  | report (accuracy : ℚ) (scorerInput : List (List Char) × List JValue)

/-- The `evaluate_file` method over the rows of one CSV file. -/
def evaluate_file (rows : List Row) : Except PyError FileReport :=
  match processRows rows initState with
  | .error e => .error e
  | .ok st =>
    if st.matched + st.unmatched = 0 then .ok .noRows
    else .ok (.report (100 * (st.matched : ℚ) / ((st.matched : ℚ) + (st.unmatched : ℚ)))
                      (st.predictions, st.references))

/-- Variant of the normalizer with the colon-wrapper / prepend-bracket branch
removed, used to state that the branch is dead code. -/
def preFinalNoBranch (s : List Char) : List Char :=
  transcriptStage (midStages (reconstructBracket s))

/-- The normalizer without its dead branch. -/
def cleanResponseNoBranch (s : List Char) : Option (List Char) :=
  finalStage (preFinalNoBranch s)

/-- A dict reference item on which the reference loop raises: lacking a
`query` key, or with a non-string `query` value, or lacking a `summary`
key. -/
def badRefObj (fields : List (List Char × JValue)) : Bool :=
  match dictLookup fields keyQuery with
  | some (.jstr _) => (dictLookup fields keySummary).isNone
  | some _ => true
  | none => true

/-- A reference array item on which the reference loop raises: not a dict, or
a dict of bad shape. -/
def badRefItem : JValue → Bool
  | .jobj fields => badRefObj fields
  | _ => true

/-- Characters allowed in the values of a canonical well-formed
array-of-objects string (claim C7): alphanumerics, space, hyphen,
underscore — text that `json.dumps` would emit without escaping. -/
def safeChar (c : Char) : Bool := c.isAlphanum || c = ' ' || c = '-' || c = '_'

/-- All characters of a value are safe. -/
def safeVal (v : List Char) : Bool := v.all safeChar

/-- All values of all pairs are safe. -/
def safePairs (ps : List (List Char × List Char)) : Bool :=
  ps.all fun p => safeVal p.1 && safeVal p.2

/-- Canonical object chunk up to the opening quote of the query value. -/
def chunkA : List Char := cs "\x7b\"query\": \""

/-- Canonical object chunk between the two values. -/
def chunkB : List Char := cs "\", \"summary\": \""

/-- Canonical object chunk after the summary value. -/
def chunkC : List Char := cs "\"\x7d"

/-- Canonical separator between objects (`json.dumps` style). -/
def sepOb : List Char := cs ", "

/-- One canonical object `{"query": "q", "summary": "s"}`. -/
def mkObj (q s : List Char) : List Char := chunkA ++ q ++ chunkB ++ s ++ chunkC

/-- The comma-separated object list of a canonical array. -/
def objsStr : List (List Char × List Char) → List Char
  | [] => []
  | [p] => mkObj p.1 p.2
  | p :: q :: rest => mkObj p.1 p.2 ++ sepOb ++ objsStr (q :: rest)

/-- A canonical well-formed array-of-objects string, the formalisation of
claim C7's hypothesis (spec section 8): `json.dumps`-style text
`[{"query": "q", "summary": "s"}, ...]` whose values use safe characters. -/
def mkCanonical (ps : List (List Char × List Char)) : List Char :=
  '[' :: (objsStr ps ++ [']'])

/-- A value that the `_replace_quotes` regex matches as a bare word: a
nonempty `[\w-]` run whose first and last characters are word characters. -/
def wordish (v : List Char) : Bool :=
  match v with
  | [] => false
  | c :: rest =>
    isWordChar c && (c :: rest).all isWordHyphen && isWordChar ((c :: rest).getLastD 'a')

/-- The negative lookahead of `_replace_quotes` evaluated on a value alone
(inside a canonical string this agrees with evaluating it on the value's
whole tail, since the letters of `query`/`summary` never match the closing
double quote). -/
def qsBlocked (v : List Char) : Bool := blockedBy keyQuery v || blockedBy keySummary v

/-- A canonical value as it appears right after `_replace_quotes`: matched
bare words get single quotes, everything else keeps its double quotes. -/
def valFormQ (v : List Char) : List Char :=
  if wordish v && !qsBlocked v then apos :: v ++ [apos] else '"' :: v ++ ['"']

/-- A canonical value as it appears in the normalizer's output: the single
quotes introduced by `_replace_quotes` have been replaced by spaces. -/
def valFormN (v : List Char) : List Char :=
  if wordish v && !qsBlocked v then ' ' :: v ++ [' '] else '"' :: v ++ ['"']

/-- Normalized object chunk up to (and excluding) the query value form. -/
def chunkA2 : List Char := cs "\x7b\"query\": "

/-- Normalized object chunk between the two value forms. -/
def chunkB2 : List Char := cs ", \"summary\": "

/-- Normalized object chunk after the summary value form. -/
def chunkC2 : List Char := [cbr]

/-- One object of the intermediate string (after `_replace_quotes`, before
the apostrophe replacement). -/
def intObj (q s : List Char) : List Char :=
  chunkA2 ++ valFormQ q ++ chunkB2 ++ valFormQ s ++ chunkC2

/-- The comma-separated object list of the intermediate string. -/
def intObjsStr : List (List Char × List Char) → List Char
  | [] => []
  | [p] => intObj p.1 p.2
  | p :: q :: rest => intObj p.1 p.2 ++ sepOb ++ intObjsStr (q :: rest)

/-- The intermediate string for a canonical input. -/
def mkIntermediate (ps : List (List Char × List Char)) : List Char :=
  '[' :: (intObjsStr ps ++ [']'])

/-- One object of the normalized string. -/
def normObj (q s : List Char) : List Char :=
  chunkA2 ++ valFormN q ++ chunkB2 ++ valFormN s ++ chunkC2

/-- The comma-separated object list of the normalized string. -/
def normObjsStr : List (List Char × List Char) → List Char
  | [] => []
  | [p] => normObj p.1 p.2
  | p :: q :: rest => normObj p.1 p.2 ++ sepOb ++ normObjsStr (q :: rest)

/-- The normalizer's output on a canonical input. -/
def mkNormalized (ps : List (List Char × List Char)) : List Char :=
  '[' :: (normObjsStr ps ++ [']'])

/-- The character set a canonical or normalized string draws from: safe value
characters plus the structural characters of the array-of-objects syntax. -/
def canonChar (c : Char) : Bool :=
  safeChar c || c = '[' || c = ']' || c = obr || c = cbr || c = '"' || c = ':' || c = ','

/-- Helper: the bracket reconstruction is literally a cons. -/
theorem reconstructBracket_cons (s : List Char) :
    reconstructBracket s =
      '[' :: joinWith ['['] (List.drop 1 (splitOnSub ['['] (afterInst s))) := rfl

/-- Helper: the normalizer always reaches the final bracket check. -/
theorem cleanResponse_eq (s : List Char) : cleanResponse s = finalStage (preFinal s) := by
  unfold cleanResponse
  rw [reconstructBracket_cons]

/-- Claim C1 is false on the code: on the Scenario A input the normalizer
does not produce the claimed canonical string (the value quotes are first
turned into single quotes by `_replace_quotes` and then replaced by spaces),
and the record is classified Unmatched with no extracted prediction. -/
theorem c1_counterexample :
    cleanResponse (cs "[INST] junk [/INST] [\x7b\"query\": \"q1\", \"summary\": \"s1\"\x7d]") ≠
      some (cs "[\x7b\"query\": \"q1\", \"summary\": \"s1\"\x7d]") ∧
    process_row
      ⟨cs "[\x7b\"query\": \"q1\", \"summary\": \"s1\"\x7d]",
       cs "[INST] junk [/INST] [\x7b\"query\": \"q1\", \"summary\": \"s1\"\x7d]"⟩
      initState =
      .ok ⟨[cs "q1"], [.jstr (cs "s1")], [[]], 0, 1⟩ :=
  ⟨by decide, rfl⟩

/-- Amended claim C1: on the Scenario A input the normalizer produces
`[{"query":  q1 , "summary":  s1 }]` (bare values), JSON parsing of that
string fails, so the extractor yields no item, one empty string is padded in,
and the record is classified Unmatched. -/
theorem c1_amended :
    cleanResponse (cs "[INST] junk [/INST] [\x7b\"query\": \"q1\", \"summary\": \"s1\"\x7d]") =
      some (cs "[\x7b\"query\":  q1 , \"summary\":  s1 \x7d]") ∧
    pyJsonLoads (cs "[\x7b\"query\":  q1 , \"summary\":  s1 \x7d]") = none ∧
    process_row
      ⟨cs "[\x7b\"query\": \"q1\", \"summary\": \"s1\"\x7d]",
       cs "[INST] junk [/INST] [\x7b\"query\": \"q1\", \"summary\": \"s1\"\x7d]"⟩
      initState =
      .ok ⟨[cs "q1"], [.jstr (cs "s1")], [[]], 0, 1⟩ :=
  ⟨rfl, rfl, rfl⟩

/-- Claim C2 is false on the code: the normalizer is not total.  On the input
`[#Transcript End` everything after the transcript-end marker strips to the
empty string and the final `response[-1]` access raises `IndexError`. -/
theorem c2_counterexample : cleanResponse (cs "[#Transcript End") = none := rfl

/-- Amended claim C2: the normalizer returns a string exactly when the text
it holds at the final closing-bracket check is nonempty; when that text is
empty (for example when everything after the last `#Transcript End` marker
strips to nothing) it raises `IndexError` instead. -/
theorem c2_amended (s : List Char) : (cleanResponse s).isSome = true ↔ preFinal s ≠ [] := by
  rw [cleanResponse_eq, finalStage]
  cases hg : (preFinal s).getLast? with
  | none =>
    rw [List.getLast?_eq_none_iff] at hg
    simp [hg]
  | some cl =>
    have hne : preFinal s ≠ [] := by
      intro he
      rw [he] at hg
      exact absurd hg (by simp)
    simp [hne]

/-- Claim C8 is false on the code: code fences are deleted, not replaced by a
space, and the language-tagged fence is not removed as a unit — the plain
fence removal runs first, leaving the tag word `json` behind. -/
theorem c8_counterexample :
    cleanResponse (cs "[```json x]") = some (cs "[json x]") ∧
    cs "[json x]" ≠ cs "[ x]" ∧
    cs "[json x]" ≠ cs "[ json x]" :=
  ⟨rfl, by decide, by decide⟩

/-- Amended claim C8: the normalizer deletes plain code-fence markers
(empty-string replacement, no space); the dedicated ```json rule never takes
effect because the plain removal runs first and leaves the tag text in
place; stray literal apostrophes and the two mis-encoded curly-quote byte
sequences are each replaced with a space. -/
theorem c8_amended :
    cleanResponse (cs "[a```b]") = some (cs "[ab]") ∧
    cleanResponse (cs "[```json x]") = some (cs "[json x]") ∧
    cleanResponse ((cs "[a") ++ [apos] ++ (cs "b]")) = some (cs "[a b]") ∧
    cleanResponse (cs "[aâ€˜b]") = some (cs "[a b]") ∧
    cleanResponse (cs "[aâ€œb]") = some (cs "[a b]") :=
  ⟨rfl, rfl, rfl, rfl, rfl⟩

/-- Claim C9: the bracket-reconstruction step literally prepends `[`, so the
string at the `response[0] != '['` check always starts with `[`, the
colon-wrapper and prepend-bracket branches never execute, and the normalizer
is unchanged when the whole branch is removed. -/
theorem c9_dead_branch (s : List Char) :
    (reconstructBracket s).head? = some '[' ∧
    branchStage (reconstructBracket s) = reconstructBracket s ∧
    cleanResponse s = cleanResponseNoBranch s := by
  have hb : branchStage (reconstructBracket s) = reconstructBracket s := by
    rw [reconstructBracket, branchStage]
    simp
  have hp : preFinal s = preFinalNoBranch s := by
    rw [preFinal, preFinalNoBranch, hb]
  refine ⟨rfl, hb, ?_⟩
  rw [cleanResponse_eq, cleanResponseNoBranch, hp]

/-- Helper for claim C6: the prediction loop keeps exactly the parsed
elements whose index is below the bound. -/
theorem extractLoop_eq_take (n : Nat) :
    ∀ (elems : List JValue) (i : Nat),
      extractLoop n elems i = (elems.take (n - i)).map predOfItem := by
  intro elems
  induction elems with
  | nil => intro i; simp [extractLoop]
  | cons e rest ih =>
    intro i
    rw [extractLoop]
    by_cases hi : i < n
    · have hpos : 0 < n - i := by omega
      rw [if_pos hi, List.take_cons hpos, List.map_cons, ih (i + 1)]
      have : n - i - 1 = n - (i + 1) := by omega
      rw [this]
    · have hz : n - i = 0 := by omega
      have hz2 : n - (i + 1) = 0 := by omega
      rw [if_neg hi, ih (i + 1), hz, hz2]
      simp

/-- Claim C6: the extractor keeps exactly the parsed elements at index below
the reference count, so it never keeps more prediction items than
`expected_count` — elements beyond the reference count are dropped. -/
theorem c6_extract_bound (elems : List JValue) (n : Nat) :
    extractLoop n elems 0 = (elems.take n).map predOfItem ∧
    (extractLoop n elems 0).length ≤ n := by
  have h := extractLoop_eq_take n elems 0
  rw [Nat.sub_zero] at h
  refine ⟨h, ?_⟩
  rw [h, List.length_map, List.length_take]
  omega

/-- Helper: padding to a target at least as long as the list yields exactly
the target length. -/
theorem padTo_length (t : Nat) (l : List (List Char)) (h : l.length ≤ t) :
    (padTo t l).length = t := by
  simp only [padTo, List.length_append, List.length_replicate]
  omega

/-- Helper: the extract loop never yields more entries than its bound. -/
theorem extractLoop_length_le (n : Nat) (elems : List JValue) :
    (extractLoop n elems 0).length ≤ n := by
  have h := extractLoop_eq_take n elems 0
  rw [Nat.sub_zero] at h
  rw [h, List.length_map, List.length_take]
  omega

/-- Helper: one processed row preserves the alignment invariant. -/
theorem process_row_aligned (r : Row) (st st2 : BatchState)
    (h : process_row r st = .ok st2)
    (hr : st.references.length = st.queries.length)
    (hp : st.predictions.length = st.queries.length) :
    st2.references.length = st2.queries.length ∧
      st2.predictions.length = st2.queries.length := by
  unfold process_row refStage pairsStage parsedStage matchedStage at h
  split at h
  · exact absurd h (by simp)
  · split at h
    · exact absurd h (by simp)
    · rename_i refVal heq pairs hpairs
      split at h
      · exact absurd h (by simp)
      · split at h
        · cases h
          refine ⟨by simp [hr], ?_⟩
          rw [padTo_length]
          simp only [List.length_append, List.length_map]
          omega
        · split at h
          · exact absurd h (by simp)
          · rename_i pv hpv elems helems
            cases h
            refine ⟨by simp [hr], ?_⟩
            rw [padTo_length]
            have hb := extractLoop_length_le pairs.length elems
            simp only [List.length_append, List.length_map]
            omega

/-- Helper: the row loop preserves the alignment invariant from any starting
state. -/
theorem processRows_aligned (rows : List Row) :
    ∀ (st st2 : BatchState), processRows rows st = .ok st2 →
      st.references.length = st.queries.length →
      st.predictions.length = st.queries.length →
      st2.references.length = st2.queries.length ∧
        st2.predictions.length = st2.queries.length := by
  induction rows with
  | nil =>
    intro st st2 h hr hp
    cases h
    exact ⟨hr, hp⟩
  | cons r rs ih =>
    intro st st2 h hr hp
    unfold processRows at h
    cases hrow : process_row r st with
    | error e => rw [hrow] at h; exact absurd h (by simp)
    | ok stm =>
      rw [hrow] at h
      have hm := process_row_aligned r st stm hrow hr hp
      exact ih stm st2 h hm.1 hm.2

/-- Claim C3: after any initial run of the row loop that completes without a
fatal error — that is, after every prefix of the batch — the cumulative lists
satisfy `len(predictions) = len(queries) = len(references)`; the padding loop
enforces the invariant row by row. -/
theorem c3_alignment (rows : List Row) (st : BatchState)
    (h : processRows rows initState = .ok st) :
    st.queries.length = st.references.length ∧
      st.predictions.length = st.queries.length := by
  have := processRows_aligned rows initState st h rfl rfl
  exact ⟨this.1.symm, this.2⟩

/-- Witness for claim C3 at a concrete one-row batch. -/
theorem c3_witness :
    ([cs "a a"] : List (List Char)).length = ([JValue.jstr (cs "b b")] : List JValue).length ∧
      ([[]] : List (List Char)).length = ([cs "a a"] : List (List Char)).length :=
  c3_alignment [⟨cs "[\x7b\"query\": \"a a\", \"summary\": \"b b\"\x7d]", cs "[]"⟩]
    ⟨[cs "a a"], [.jstr (cs "b b")], [[]], 1, 0⟩ rfl

/-- Claim C4: when at least one row was counted, the reported accuracy is
exactly `100 * matched / (matched + unmatched)` and lies in `[0, 100]`
(computed here in exact rationals); when no row was counted the file report
is the no-rows notice and no scorer input is produced. -/
theorem c4_accuracy (rows : List Row) (st : BatchState)
    (h : processRows rows initState = .ok st) :
    (st.matched + st.unmatched = 0 → evaluate_file rows = .ok .noRows) ∧
    (0 < st.matched + st.unmatched →
      evaluate_file rows =
        .ok (.report (100 * (st.matched : ℚ) / ((st.matched : ℚ) + (st.unmatched : ℚ)))
              (st.predictions, st.references)) ∧
      0 ≤ 100 * (st.matched : ℚ) / ((st.matched : ℚ) + (st.unmatched : ℚ)) ∧
      100 * (st.matched : ℚ) / ((st.matched : ℚ) + (st.unmatched : ℚ)) ≤ 100) := by
  have he : evaluate_file rows =
      if st.matched + st.unmatched = 0 then .ok .noRows
      else .ok (.report (100 * (st.matched : ℚ) / ((st.matched : ℚ) + (st.unmatched : ℚ)))
                 (st.predictions, st.references)) := by
    unfold evaluate_file
    rw [h]
  constructor
  · intro h0
    rw [he, if_pos h0]
  · intro hpos
    have hne : ¬(st.matched + st.unmatched = 0) := by omega
    refine ⟨by rw [he, if_neg hne], ?_, ?_⟩
    · positivity
    · have hd : (0 : ℚ) < (st.matched : ℚ) + (st.unmatched : ℚ) := by
        have h1 : (0 : ℚ) < ((st.matched + st.unmatched : ℕ) : ℚ) := by
          exact_mod_cast Nat.pos_of_ne_zero hne
        push_cast at h1
        linarith
      rw [div_le_iff₀ hd]
      have hm : (st.matched : ℚ) ≤ (st.matched : ℚ) + (st.unmatched : ℚ) := by
        have h2 : (0 : ℚ) ≤ (st.unmatched : ℚ) := by positivity
        linarith
      nlinarith

/-- Witness for claim C4 at a concrete one-row batch. -/
theorem c4_witness :
    evaluate_file [⟨cs "[]", cs "[]"⟩] =
      .ok (.report (100 * ((1 : ℕ) : ℚ) / (((1 : ℕ) : ℚ) + ((0 : ℕ) : ℚ))) ([], [])) ∧
    0 ≤ 100 * ((1 : ℕ) : ℚ) / (((1 : ℕ) : ℚ) + ((0 : ℕ) : ℚ)) ∧
    100 * ((1 : ℕ) : ℚ) / (((1 : ℕ) : ℚ) + ((0 : ℕ) : ℚ)) ≤ 100 :=
  (c4_accuracy [⟨cs "[]", cs "[]"⟩] ⟨[], [], [], 1, 0⟩ rfl).2 (by decide)

/-- Claim C5 is false in its only-if direction: on this row the reference
field parses as structured data (the empty array), yet processing raises —
the normalizer itself hits the uncaught `IndexError` on the degenerate
response `[#Transcript End`. -/
theorem c5_counterexample :
    pyJsonLoads (cs "[]") = some (.jarr []) ∧
    process_row ⟨cs "[]", cs "[#Transcript End"⟩ initState = .error .indexError :=
  ⟨rfl, rfl⟩

/-- Amended claim C5: a record whose reference fails to parse raises
`json.JSONDecodeError`; a record whose response normalizes successfully but
fails to parse never raises — it is counted as Unmatched, contributes zero
extracted predictions and only empty-string padding; but the normalizer
itself can additionally raise `IndexError` on degenerate responses, so
reference failure is not the only fatal path. -/
theorem c5_amended (row : Row) (st : BatchState) :
    (pyJsonLoads row.reference = none → process_row row st = .error .jsonDecodeError) ∧
    (cleanResponse row.summary = none →
      (∀ refVal, pyJsonLoads row.reference = some refVal →
        ∀ pairs, refPairs refVal = .ok pairs →
          process_row row st = .error .indexError)) ∧
    (∀ refVal pairs resp,
      pyJsonLoads row.reference = some refVal →
      refPairs refVal = .ok pairs →
      cleanResponse row.summary = some resp →
      pyJsonLoads resp = none →
      process_row row st =
        .ok ⟨st.queries ++ pairs.map Prod.fst,
             st.references ++ pairs.map Prod.snd,
             padTo (st.queries ++ pairs.map Prod.fst).length st.predictions,
             st.matched, st.unmatched + 1⟩) := by
  refine ⟨?_, ?_, ?_⟩
  · intro h
    unfold process_row
    rw [h]
  · intro hc refVal h1 pairs h2
    calc process_row row st = refStage row st refVal := by unfold process_row; rw [h1]
      _ = pairsStage row st pairs := by unfold refStage; rw [h2]
      _ = .error .indexError := by unfold pairsStage; rw [hc]
  · intro refVal pairs resp h1 h2 h3 h4
    calc process_row row st = refStage row st refVal := by unfold process_row; rw [h1]
      _ = pairsStage row st pairs := by unfold refStage; rw [h2]
      _ = parsedStage st pairs resp := by unfold pairsStage; rw [h3]
      _ = _ := by unfold parsedStage; rw [h4]

/-- Witness for claim C5: a bad reference raises, and a valid reference with
an unparseable (but normalizable) response is recorded as unmatched with only
padding. -/
theorem c5_witness :
    process_row ⟨cs "not json", cs "[]"⟩ initState = .error .jsonDecodeError ∧
    process_row ⟨cs "[]", cs "[x]"⟩ initState =
      .ok ⟨[] ++ ([] : List (List Char × JValue)).map Prod.fst,
           [] ++ ([] : List (List Char × JValue)).map Prod.snd,
           padTo ([] ++ ([] : List (List Char × JValue)).map Prod.fst).length [],
           0, 0 + 1⟩ :=
  ⟨(c5_amended ⟨cs "not json", cs "[]"⟩ initState).1 rfl,
   (c5_amended ⟨cs "[]", cs "[x]"⟩ initState).2.2 (.jarr []) [] (cs "[x]") rfl rfl rfl rfl⟩

/-- Helper for claim C10: every error of the reference loop body on a dict
item is a `KeyError` or `AttributeError`. -/
theorem refObjExtract_kind (fields : List (List Char × JValue)) (e : PyError)
    (h : refObjExtract fields = .error e) :
    e = .keyError ∨ e = .typeError ∨ e = .attributeError := by
  unfold refObjExtract at h
  split at h
  all_goals try split at h
  all_goals cases h
  all_goals simp

/-- Helper for claim C10: every error of the reference loop body is a
`KeyError`, `TypeError` or `AttributeError`. -/
theorem refItemExtract_kind : ∀ (it : JValue) (e : PyError),
    refItemExtract it = .error e →
    e = .keyError ∨ e = .typeError ∨ e = .attributeError
  | .jobj fields, e, h => refObjExtract_kind fields e h
  | .jnull, e, h => by cases h; exact Or.inr (Or.inl rfl)
  | .jbool _, e, h => by cases h; exact Or.inr (Or.inl rfl)
  | .jnum _, e, h => by cases h; exact Or.inr (Or.inl rfl)
  | .jstr _, e, h => by cases h; exact Or.inr (Or.inl rfl)
  | .jarr _, e, h => by cases h; exact Or.inr (Or.inl rfl)

/-- Helper for claim C10: a bad dict item makes the reference loop body
raise. -/
theorem refObjExtract_bad (fields : List (List Char × JValue))
    (h : badRefObj fields = true) : ∃ e, refObjExtract fields = .error e := by
  unfold badRefObj at h
  split at h
  · rename_i q hq
    rw [Option.isNone_iff_eq_none] at h
    refine ⟨.keyError, ?_⟩
    unfold refObjExtract
    rw [hq, h]
  · rename_i val hne hsome
    refine ⟨.attributeError, ?_⟩
    unfold refObjExtract
    rw [hsome]
    rcases val with _ | b | lex | s | items | fs
    · rfl
    · rfl
    · rfl
    · exact absurd rfl (hne s)
    · rfl
    · rfl
  · rename_i hq
    refine ⟨.keyError, ?_⟩
    unfold refObjExtract
    rw [hq]

/-- Helper for claim C10: a bad item makes the reference loop body raise. -/
theorem refItemExtract_bad : ∀ it : JValue, badRefItem it = true →
    ∃ e, refItemExtract it = .error e
  | .jobj fields, h => refObjExtract_bad fields h
  | .jnull, _ => ⟨.typeError, rfl⟩
  | .jbool _, _ => ⟨.typeError, rfl⟩
  | .jnum _, _ => ⟨.typeError, rfl⟩
  | .jstr _, _ => ⟨.typeError, rfl⟩
  | .jarr _, _ => ⟨.typeError, rfl⟩

/-- Helper for claim C10: the reference loop over a list containing a bad
item raises one of the three shape errors. -/
theorem extractRefItems_bad (items : List JValue)
    (h : ∃ it ∈ items, badRefItem it = true) :
    ∃ e, extractRefItems items = .error e ∧
      (e = .keyError ∨ e = .typeError ∨ e = .attributeError) := by
  induction items with
  | nil => rcases h with ⟨it, hmem, _⟩; exact absurd hmem (by simp)
  | cons it rest ih =>
    rcases hfirst : refItemExtract it with e | p
    · refine ⟨e, ?_, refItemExtract_kind it e hfirst⟩
      unfold extractRefItems
      rw [hfirst]
    · rcases h with ⟨b, hmem, hbad⟩
      rcases List.mem_cons.mp hmem with hb | hb
      · subst hb
        obtain ⟨e2, he2⟩ := refItemExtract_bad b hbad
        rw [hfirst] at he2
        cases he2
      · obtain ⟨e, he, hkind⟩ := ih ⟨b, hb, hbad⟩
        refine ⟨e, ?_, hkind⟩
        unfold extractRefItems
        rw [hfirst, he]

/-- Helper: the reference pairs of a parsed array are the extracted items. -/
theorem refPairs_arr (items : List JValue) :
    refPairs (.jarr items) = extractRefItems items := rfl

/-- Claim C10: when the reference field is valid JSON whose array holds an
item that is not an object with a string `query` value and a `summary` key,
processing the row raises one of the shape errors (`KeyError`, `TypeError`,
`AttributeError`), aborting file processing — the fatal trusted-reference
path covers key presence and value shape, not only JSON syntax. -/
theorem c10_bad_reference (row : Row) (st : BatchState) (items : List JValue)
    (h1 : pyJsonLoads row.reference = some (.jarr items))
    (h2 : ∃ it ∈ items, badRefItem it = true) :
    ∃ e, process_row row st = .error e ∧
      (e = .keyError ∨ e = .typeError ∨ e = .attributeError) := by
  obtain ⟨e, he, hkind⟩ := extractRefItems_bad items h2
  refine ⟨e, ?_, hkind⟩
  calc process_row row st = refStage row st (.jarr items) := by unfold process_row; rw [h1]
    _ = .error e := by
        unfold refStage
        rw [refPairs_arr, he]

/-- Witness for claim C10: a reference item lacking its `summary` key makes
processing raise `KeyError`. -/
theorem c10_witness :
    ∃ e, process_row ⟨cs "[\x7b\"query\": \"q\"\x7d]", cs "[]"⟩ initState = .error e ∧
      (e = .keyError ∨ e = .typeError ∨ e = .attributeError) :=
  c10_bad_reference ⟨cs "[\x7b\"query\": \"q\"\x7d]", cs "[]"⟩ initState
    [.jobj [(cs "query", .jstr (cs "q"))]] rfl
    ⟨.jobj [(cs "query", .jstr (cs "q"))], by simp, rfl⟩

/-- Helper: a successful prefix test exposes the prefix. -/
theorem lpre_exists (p : List Char) :
    ∀ l, lpre p l = true → ∃ t, l = p ++ t := by
  induction p with
  | nil => intro l _; exact ⟨l, rfl⟩
  | cons a as ih =>
    intro l h
    cases l with
    | nil => exact absurd h (by simp [lpre])
    | cons b bs =>
      rw [lpre] at h
      by_cases hab : a = b
      · subst hab
        rw [if_pos rfl] at h
        obtain ⟨t, ht⟩ := ih bs h
        exact ⟨t, by rw [ht, List.cons_append]⟩
      · rw [if_neg hab] at h; cases h

/-- Helper: a list passes the prefix test against itself extended. -/
theorem lpre_append (p : List Char) : ∀ t, lpre p (p ++ t) = true := by
  induction p with
  | nil => intro t; rfl
  | cons a as ih => intro t; simp [lpre, ih t]

/-- Helper: a pattern with a character absent from the text is not a
substring of it. -/
theorem hasSub_false_of_mem (c : Char) (pat : List Char) (hc : c ∈ pat) :
    ∀ l, c ∉ l → hasSub pat l = false := by
  intro l
  induction l with
  | nil =>
    intro _
    cases pat with
    | nil => exact absurd hc (by simp)
    | cons a as => rfl
  | cons x rest ih =>
    intro hl
    rw [hasSub]
    cases hlp : lpre pat (x :: rest) with
    | true =>
      obtain ⟨t, ht⟩ := lpre_exists pat (x :: rest) hlp
      have : c ∈ x :: rest := ht ▸ List.mem_append_left t hc
      exact absurd this hl
    | false =>
      rw [ih (fun hmem => hl (List.mem_cons_of_mem x hmem))]
      rfl

/-- Helper: the replace scan in skip mode drops exactly the skipped
characters. -/
theorem replaceSubAux_skip (pat rep : List Char) :
    ∀ (a b : List Char), replaceSubAux pat rep a.length (a ++ b) = replaceSubAux pat rep 0 b := by
  intro a
  induction a with
  | nil => intro b; rfl
  | cons x a' ih =>
    intro b
    simp only [List.length_cons, List.cons_append]
    rw [replaceSubAux]
    exact ih b

/-- Helper: the replace scan is the identity when the pattern does not
occur. -/
theorem replaceSubAux_not_hasSub (pat rep : List Char) :
    ∀ l, hasSub pat l = false → replaceSubAux pat rep 0 l = l := by
  intro l
  induction l with
  | nil => intro _; rfl
  | cons c rest ih =>
    intro h
    rw [hasSub, Bool.or_eq_false_iff] at h
    rw [replaceSubAux, if_neg (by rw [h.1]; exact Bool.false_ne_true), ih h.2]

/-- Helper: `str.replace` is the identity when the pattern does not occur. -/
theorem replaceSub_not_hasSub (pat rep l : List Char) (h : hasSub pat l = false) :
    replaceSub pat rep l = l := by
  unfold replaceSub
  split
  · rfl
  · exact replaceSubAux_not_hasSub pat rep l h

/-- Helper: `str.replace` is the identity when some pattern character is
absent from the text. -/
theorem replaceSub_of_not_mem (c : Char) (pat rep l : List Char)
    (hc : c ∈ pat) (hl : c ∉ l) : replaceSub pat rep l = l :=
  replaceSub_not_hasSub pat rep l (hasSub_false_of_mem c pat hc l hl)

/-- Helper: replacing a single character is a pointwise map. -/
theorem replaceSub_single (c d : Char) :
    ∀ l, replaceSub [c] [d] l = l.map fun x => if x = c then d else x := by
  have aux : ∀ l, replaceSubAux [c] [d] 0 l = l.map fun x => if x = c then d else x := by
    intro l
    induction l with
    | nil => rfl
    | cons x rest ih =>
      rw [replaceSubAux]
      by_cases hx : x = c
      · subst hx
        rw [if_pos (by simp [lpre])]
        simp [ih]
      · rw [if_neg (by simp [lpre]; exact fun he => hx he.symm), ih]
        simp [hx]
  intro l
  unfold replaceSub
  rw [if_neg (by simp)]
  exact aux l

/-- Helper: a pointwise character replacement is the identity when the
character is absent. -/
theorem map_replace_id (c d : Char) :
    ∀ l : List Char, c ∉ l → (l.map fun x => if x = c then d else x) = l := by
  intro l
  induction l with
  | nil => intro _; rfl
  | cons x rest ih =>
    intro h
    have hx : ¬x = c := fun he => h (he ▸ List.mem_cons_self x rest)
    simp only [List.map_cons, if_neg hx]
    rw [ih fun hmem => h (List.mem_cons_of_mem x hmem)]

/-- Helper: the split scan in skip mode drops exactly the skipped
characters. -/
theorem splitOnSubAux_skip (pat : List Char) :
    ∀ (a b : List Char), splitOnSubAux pat a.length (a ++ b) = splitOnSubAux pat 0 b := by
  intro a
  induction a with
  | nil => intro b; rfl
  | cons x a' ih =>
    intro b
    simp only [List.length_cons, List.cons_append]
    rw [splitOnSubAux]
    exact ih b

/-- Helper: the split scan never returns an empty list of parts. -/
theorem splitOnSubAux_ne_nil (pat : List Char) :
    ∀ l k, splitOnSubAux pat k l ≠ [] := by
  intro l
  induction l with
  | nil => intro k; simp [splitOnSubAux]
  | cons c rest ih =>
    intro k
    cases k with
    | zero =>
      rw [splitOnSubAux]
      by_cases hp : lpre pat (c :: rest) = true
      · simp [hp]
      · rw [if_neg hp]
        cases hres : splitOnSubAux pat 0 rest with
        | nil => exact absurd hres (ih 0)
        | cons p ps => simp
    | succ k' =>
      rw [splitOnSubAux]
      exact ih k'

/-- Helper: the split is a single part when the pattern does not occur. -/
theorem splitOnSub_not_hasSub (pat l : List Char) (h : hasSub pat l = false) :
    splitOnSub pat l = [l] := by
  unfold splitOnSub
  split
  · rfl
  · induction l with
    | nil =>
      rename_i hp
      cases pat with
      | nil => exact absurd rfl hp
      | cons a as => rfl
    | cons c rest ih =>
      rw [hasSub, Bool.or_eq_false_iff] at h
      rw [splitOnSubAux, if_neg (by rw [h.1]; exact Bool.false_ne_true), ih h.2]

/-- Helper: joining a cons-headed first part commutes with the head. -/
theorem joinWith_cons_cons (sep : List Char) (c : Char) (p : List Char)
    (ps : List (List Char)) :
    joinWith sep ((c :: p) :: ps) = c :: joinWith sep (p :: ps) := by
  cases ps <;> rfl

/-- Helper: joining the split parts with the separator restores the
string. -/
theorem joinWith_splitOnSubAux (pat : List Char) (hp : pat ≠ []) :
    ∀ (n : Nat) (l : List Char), l.length ≤ n →
      joinWith pat (splitOnSubAux pat 0 l) = l := by
  intro n
  induction n with
  | zero =>
    intro l hl
    have : l = [] := List.length_eq_zero.mp (Nat.le_zero.mp hl)
    subst this
    rfl
  | succ n ih =>
    intro l hl
    cases l with
    | nil => rfl
    | cons c rest =>
      rw [splitOnSubAux]
      by_cases hpre : lpre pat (c :: rest) = true
      · rw [if_pos hpre]
        obtain ⟨t, ht⟩ := lpre_exists pat (c :: rest) hpre
        cases pat with
        | nil => exact absurd rfl hp
        | cons p0 pat' =>
          have hc : p0 = c := by
            have := ht
            rw [List.cons_append] at this
            exact (List.cons.injEq .. ▸ this).1.symm
          have hrest : rest = pat' ++ t := by
            have := ht
            rw [List.cons_append] at this
            exact (List.cons.injEq .. ▸ this).2
          have hskip : splitOnSubAux (p0 :: pat') ((p0 :: pat').length - 1) rest =
              splitOnSubAux (p0 :: pat') 0 t := by
            rw [hrest]
            have : (p0 :: pat').length - 1 = pat'.length := by simp
            rw [this]
            exact splitOnSubAux_skip (p0 :: pat') pat' t
          rw [hskip]
          cases hsp : splitOnSubAux (p0 :: pat') 0 t with
          | nil => exact absurd hsp (splitOnSubAux_ne_nil (p0 :: pat') t 0)
          | cons s0 ss =>
            have hjoin : joinWith (p0 :: pat') (s0 :: ss) = t := by
              rw [← hsp]
              apply ih
              have : rest.length = pat'.length + t.length := by
                rw [hrest, List.length_append]
              have hlen : (c :: rest).length ≤ n + 1 := hl
              simp only [List.length_cons] at hlen
              omega
            show joinWith (p0 :: pat') ([] :: s0 :: ss) = c :: rest
            rw [joinWith]
            simp only [List.nil_append]
            rw [hjoin, ht, hc]
      · rw [if_neg hpre]
        cases hres : splitOnSubAux pat 0 rest with
        | nil => exact absurd hres (splitOnSubAux_ne_nil pat rest 0)
        | cons p ps =>
          rw [joinWith_cons_cons, ← hres]
          congr 1
          apply ih
          simp only [List.length_cons] at hl
          omega

/-- Helper: `sep.join(s.split(sep))` restores the string. -/
theorem joinWith_splitOnSub (pat l : List Char) (hp : pat ≠ []) :
    joinWith pat (splitOnSub pat l) = l := by
  unfold splitOnSub
  rw [if_neg hp]
  exact joinWith_splitOnSubAux pat hp l.length l le_rfl

/-- Helper: the bracket reconstruction is the identity on a string that
already starts with the bracket. -/
theorem reconstructBracket_of_bracket (s : List Char) (t : List Char)
    (h : afterInst s = '[' :: t) : reconstructBracket s = afterInst s := by
  rw [reconstructBracket, h]
  have hsplit : splitOnSub ['['] ('[' :: t) = [] :: splitOnSubAux ['['] 0 t := by
    unfold splitOnSub
    rw [if_neg (by simp)]
    rw [splitOnSubAux, if_pos (by simp [lpre])]
    rfl
  rw [hsplit]
  simp only [List.drop_succ_cons, List.drop_zero]
  have : splitOnSubAux ['['] 0 t = splitOnSub ['['] t := by
    unfold splitOnSub
    rw [if_neg (by simp)]
  rw [this, joinWith_splitOnSub ['['] t (by simp)]

/-- Helper: `strip` is the identity when both ends are non-whitespace. -/
theorem pyStrip_eq_self (l : List Char)
    (h1 : ∀ c, l.head? = some c → isPySpace c = false)
    (h2 : ∀ c, l.getLast? = some c → isPySpace c = false) : pyStrip l = l := by
  cases l with
  | nil => rfl
  | cons c t =>
    unfold pyStrip
    have hc : isPySpace c = false := h1 c rfl
    rw [List.dropWhile_cons, hc]
    simp only [Bool.false_eq_true, if_false]
    cases hrev : (c :: t).reverse with
    | nil => exact absurd (congrArg List.length hrev) (by simp)
    | cons d r =>
      have hd : (c :: t).getLast? = some d := by
        rw [← List.head?_reverse, hrev]
        rfl
      rw [List.dropWhile_cons, h2 d hd]
      simp only [Bool.false_eq_true, if_false]
      rw [← hrev, List.reverse_reverse]

/-- Helper: the branch stage is the identity on a string starting with the
bracket. -/
theorem branchStage_bracket (t : List Char) : branchStage ('[' :: t) = '[' :: t := by
  rw [branchStage]
  simp

/-- Helper: safe characters are canonical characters. -/
theorem canonChar_of_safe (c : Char) (h : safeChar c = true) : canonChar c = true := by
  simp [canonChar, h]

/-- Helper: characters of a safe value are canonical. -/
theorem canonChar_of_mem_safe (v : List Char) (hv : safeVal v = true) :
    ∀ c ∈ v, canonChar c = true := by
  intro c hc
  exact canonChar_of_safe c (List.all_eq_true.mp hv c hc)

/-- Helper: characters of a canonical object are canonical. -/
theorem mem_mkObj (q s : List Char) (hq : safeVal q = true) (hs : safeVal s = true) :
    ∀ c ∈ mkObj q s, canonChar c = true := by
  intro c hc
  simp only [mkObj, List.mem_append] at hc
  rcases hc with ((((h | h) | h) | h) | h)
  · revert h; revert c; decide
  · exact canonChar_of_mem_safe q hq c h
  · revert h; revert c; decide
  · exact canonChar_of_mem_safe s hs c h
  · revert h; revert c; decide

/-- Helper: characters of the canonical object list are canonical. -/
theorem mem_objsStr : ∀ ps : List (List Char × List Char), safePairs ps = true →
    ∀ c ∈ objsStr ps, canonChar c = true := by
  intro ps
  induction ps with
  | nil => intro _ c hc; exact absurd hc (by simp [objsStr])
  | cons p ps ih =>
    intro hsafe c hc
    have hp : safeVal p.1 = true ∧ safeVal p.2 = true := by
      have := List.all_eq_true.mp hsafe p (List.mem_cons_self p ps)
      exact ⟨(Bool.and_eq_true _ _ ▸ this).1, (Bool.and_eq_true _ _ ▸ this).2⟩
    have hps : safePairs ps = true := by
      apply List.all_eq_true.mpr
      intro x hx
      exact List.all_eq_true.mp hsafe x (List.mem_cons_of_mem p hx)
    cases ps with
    | nil =>
      rw [objsStr] at hc
      exact mem_mkObj p.1 p.2 hp.1 hp.2 c hc
    | cons q rest =>
      rw [objsStr] at hc
      simp only [List.mem_append] at hc
      rcases hc with (h | h) | h
      · exact mem_mkObj p.1 p.2 hp.1 hp.2 c h
      · revert h; revert c; decide
      · exact ih hps c h

/-- Helper: characters of a canonical string are canonical. -/
theorem mem_mkCanonical (ps : List (List Char × List Char)) (hsafe : safePairs ps = true) :
    ∀ c ∈ mkCanonical ps, canonChar c = true := by
  intro c hc
  simp only [mkCanonical, List.mem_cons, List.mem_append, List.not_mem_nil, or_false] at hc
  rcases hc with h | h | h
  · subst h; decide
  · exact mem_objsStr ps hsafe c h
  · subst h; decide

/-- Helper: characters of a normalized value form are canonical. -/
theorem mem_valFormN (v : List Char) (hv : safeVal v = true) :
    ∀ c ∈ valFormN v, canonChar c = true := by
  intro c hc
  unfold valFormN at hc
  split at hc <;>
  · rcases List.mem_cons.mp hc with h | hc2
    · subst h; decide
    · rcases List.mem_append.mp hc2 with h | h
      · exact canonChar_of_mem_safe v hv c h
      · rw [List.mem_singleton] at h; subst h; decide

/-- Helper: characters of an intermediate value form are canonical or the
apostrophe. -/
theorem mem_valFormQ (v : List Char) (hv : safeVal v = true) :
    ∀ c ∈ valFormQ v, canonChar c = true ∨ c = apos := by
  intro c hc
  unfold valFormQ at hc
  split at hc
  · rcases List.mem_cons.mp hc with h | hc2
    · exact Or.inr h
    · rcases List.mem_append.mp hc2 with h | h
      · exact Or.inl (canonChar_of_mem_safe v hv c h)
      · rw [List.mem_singleton] at h; exact Or.inr h
  · rcases List.mem_cons.mp hc with h | hc2
    · subst h; exact Or.inl (by decide)
    · rcases List.mem_append.mp hc2 with h | h
      · exact Or.inl (canonChar_of_mem_safe v hv c h)
      · rw [List.mem_singleton] at h; subst h; exact Or.inl (by decide)

/-- Helper: characters of a normalized object are canonical. -/
theorem mem_normObj (q s : List Char) (hq : safeVal q = true) (hs : safeVal s = true) :
    ∀ c ∈ normObj q s, canonChar c = true := by
  intro c hc
  simp only [normObj, List.mem_append] at hc
  rcases hc with ((((h | h) | h) | h) | h)
  · revert h; revert c; decide
  · exact mem_valFormN q hq c h
  · revert h; revert c; decide
  · exact mem_valFormN s hs c h
  · revert h; revert c; decide

/-- Helper: characters of an intermediate object are canonical or the
apostrophe. -/
theorem mem_intObj (q s : List Char) (hq : safeVal q = true) (hs : safeVal s = true) :
    ∀ c ∈ intObj q s, canonChar c = true ∨ c = apos := by
  intro c hc
  simp only [intObj, List.mem_append] at hc
  rcases hc with ((((h | h) | h) | h) | h)
  · refine Or.inl ?_; revert h; revert c; decide
  · exact mem_valFormQ q hq c h
  · refine Or.inl ?_; revert h; revert c; decide
  · exact mem_valFormQ s hs c h
  · refine Or.inl ?_; revert h; revert c; decide

/-- Helper: characters of the normalized object list are canonical. -/
theorem mem_normObjsStr : ∀ ps : List (List Char × List Char), safePairs ps = true →
    ∀ c ∈ normObjsStr ps, canonChar c = true := by
  intro ps
  induction ps with
  | nil => intro _ c hc; exact absurd hc (by simp [normObjsStr])
  | cons p ps ih =>
    intro hsafe c hc
    have hp : safeVal p.1 = true ∧ safeVal p.2 = true := by
      have := List.all_eq_true.mp hsafe p (List.mem_cons_self p ps)
      exact ⟨(Bool.and_eq_true _ _ ▸ this).1, (Bool.and_eq_true _ _ ▸ this).2⟩
    have hps : safePairs ps = true := by
      apply List.all_eq_true.mpr
      intro x hx
      exact List.all_eq_true.mp hsafe x (List.mem_cons_of_mem p hx)
    cases ps with
    | nil =>
      rw [normObjsStr] at hc
      exact mem_normObj p.1 p.2 hp.1 hp.2 c hc
    | cons q rest =>
      rw [normObjsStr] at hc
      simp only [List.mem_append] at hc
      rcases hc with (h | h) | h
      · exact mem_normObj p.1 p.2 hp.1 hp.2 c h
      · revert h; revert c; decide
      · exact ih hps c h

/-- Helper: characters of the intermediate object list are canonical or the
apostrophe. -/
theorem mem_intObjsStr : ∀ ps : List (List Char × List Char), safePairs ps = true →
    ∀ c ∈ intObjsStr ps, canonChar c = true ∨ c = apos := by
  intro ps
  induction ps with
  | nil => intro _ c hc; exact absurd hc (by simp [intObjsStr])
  | cons p ps ih =>
    intro hsafe c hc
    have hp : safeVal p.1 = true ∧ safeVal p.2 = true := by
      have := List.all_eq_true.mp hsafe p (List.mem_cons_self p ps)
      exact ⟨(Bool.and_eq_true _ _ ▸ this).1, (Bool.and_eq_true _ _ ▸ this).2⟩
    have hps : safePairs ps = true := by
      apply List.all_eq_true.mpr
      intro x hx
      exact List.all_eq_true.mp hsafe x (List.mem_cons_of_mem p hx)
    cases ps with
    | nil =>
      rw [intObjsStr] at hc
      exact mem_intObj p.1 p.2 hp.1 hp.2 c hc
    | cons q rest =>
      rw [intObjsStr] at hc
      simp only [List.mem_append] at hc
      rcases hc with (h | h) | h
      · exact mem_intObj p.1 p.2 hp.1 hp.2 c h
      · refine Or.inl ?_; revert h; revert c; decide
      · exact ih hps c h

/-- Helper: characters of a normalized string are canonical. -/
theorem mem_mkNormalized (ps : List (List Char × List Char)) (hsafe : safePairs ps = true) :
    ∀ c ∈ mkNormalized ps, canonChar c = true := by
  intro c hc
  simp only [mkNormalized, List.mem_cons, List.mem_append, List.not_mem_nil, or_false] at hc
  rcases hc with h | h | h
  · subst h; decide
  · exact mem_normObjsStr ps hsafe c h
  · subst h; decide

/-- Helper: characters of an intermediate string are canonical or the
apostrophe. -/
theorem mem_mkIntermediate (ps : List (List Char × List Char)) (hsafe : safePairs ps = true) :
    ∀ c ∈ mkIntermediate ps, canonChar c = true ∨ c = apos := by
  intro c hc
  simp only [mkIntermediate, List.mem_cons, List.mem_append, List.not_mem_nil, or_false] at hc
  rcases hc with h | h | h
  · subst h; exact Or.inl (by decide)
  · exact mem_intObjsStr ps hsafe c h
  · subst h; exact Or.inl (by decide)

/-- Helper: the two-character prefix test on a two-or-more list. -/
theorem lpre_two_eq (x y c d : Char) (r : List Char) :
    lpre [x, y] (c :: d :: r) = (decide (x = c) && decide (y = d)) := by
  by_cases h1 : x = c <;> by_cases h2 : y = d <;> simp [lpre, h1, h2]

/-- Helper: the two-character prefix test fails on a singleton. -/
theorem lpre_two_single (x y c : Char) : lpre [x, y] [c] = false := by
  by_cases h : x = c <;> simp [lpre, h]

/-- Helper: a two-character pattern steps over a character that differs from
its first character. -/
theorem hasSub_two_cons_ne (x y c : Char) (l : List Char) (h : ¬c = x) :
    hasSub [x, y] (c :: l) = hasSub [x, y] l := by
  rw [hasSub]
  have hx : decide (x = c) = false := by
    simp only [decide_eq_false_iff_not]
    exact fun he => h he.symm
  cases l with
  | nil => rw [lpre_two_single]; rfl
  | cons d l' => rw [lpre_two_eq, hx, Bool.false_and, Bool.false_or]

/-- Helper: a two-character pattern absent from two parts and not straddling
their boundary is absent from their concatenation. -/
theorem hasSub_two_append (x y : Char) :
    ∀ (a b : List Char), hasSub [x, y] a = false → hasSub [x, y] b = false →
      ¬(a.getLast? = some x ∧ b.head? = some y) →
      hasSub [x, y] (a ++ b) = false := by
  intro a
  induction a with
  | nil => intro b _ hb _; exact hb
  | cons c a' ih =>
    intro b ha hb hbd
    rw [hasSub, Bool.or_eq_false_iff] at ha
    rw [List.cons_append, hasSub, Bool.or_eq_false_iff]
    refine ⟨?_, ?_⟩
    · cases a' with
      | nil =>
        cases b with
        | nil => exact lpre_two_single x y c
        | cons d b' =>
          simp only [List.nil_append]
          rw [lpre_two_eq]
          by_cases hcx : x = c
          · by_cases hdy : y = d
            · exact absurd ⟨by simp [hcx], by simp [hdy]⟩ hbd
            · simp [hdy]
          · simp [hcx]
      | cons e a'' =>
        rw [List.cons_append, lpre_two_eq]
        rw [lpre_two_eq] at ha
        exact ha.1
    · apply ih b ha.2 hb
      cases a' with
      | nil => rintro ⟨h1, -⟩; cases h1
      | cons e a'' =>
        rw [List.getLast?_cons_cons] at hbd
        exact hbd

/-- Helper: the `,"` pattern is absent from a safe value. -/
theorem hasSub_cq_safe (v : List Char) (hv : safeVal v = true) :
    hasSub [',', '"'] v = false := by
  apply hasSub_false_of_mem ',' _ (by decide)
  intro hm
  exact absurd (List.all_eq_true.mp hv ',' hm) (by decide)

/-- Helper: a list whose last character is provably not a comma cannot start
the `,"` straddle. -/
theorem no_cq_boundary (a b : List Char)
    (hz : ∀ z, a.getLast? = some z → ¬z = ',') :
    ¬(a.getLast? = some ',' ∧ b.head? = some '"') := by
  rintro ⟨h1, -⟩
  exact hz ',' h1 rfl

/-- Helper: a safe value never ends in a comma. -/
theorem safe_getLast_ne_comma (v : List Char) (hv : safeVal v = true) :
    ∀ z, v.getLast? = some z → ¬z = ',' := by
  intro z hz he
  subst he
  have hm : ',' ∈ v := List.mem_of_mem_getLast? (by rw [Option.mem_def]; exact hz)
  exact absurd (List.all_eq_true.mp hv ',' hm) (by decide)

/-- Helper: the last character of a normalized value form is a space or a
double quote. -/
theorem valFormN_getLast (v : List Char) :
    (valFormN v).getLast? = some ' ' ∨ (valFormN v).getLast? = some '"' := by
  unfold valFormN
  split
  · exact Or.inl (List.getLast?_concat _)
  · exact Or.inr (List.getLast?_concat _)

/-- Helper: the `,"` pattern is absent from a normalized value form. -/
theorem hasSub_cq_valFormN (v : List Char) (hv : safeVal v = true) :
    hasSub [',', '"'] (valFormN v) = false := by
  apply hasSub_false_of_mem ',' _ (by decide)
  intro hm
  unfold valFormN at hm
  have : ¬(safeChar ',' = true) := by decide
  split at hm <;>
  · rcases List.mem_cons.mp hm with h | hm2
    · cases h
    · rcases List.mem_append.mp hm2 with h | h
      · exact this (List.all_eq_true.mp hv ',' h)
      · rw [List.mem_singleton] at h; cases h

/-- Helper: safety of the head pair. -/
theorem safePairs_head (p : List Char × List Char) (ps : List (List Char × List Char))
    (h : safePairs (p :: ps) = true) : safeVal p.1 = true ∧ safeVal p.2 = true := by
  have := List.all_eq_true.mp h p (List.mem_cons_self p ps)
  exact ⟨(Bool.and_eq_true _ _ ▸ this).1, (Bool.and_eq_true _ _ ▸ this).2⟩

/-- Helper: safety of the tail pairs. -/
theorem safePairs_tail (p : List Char × List Char) (ps : List (List Char × List Char))
    (h : safePairs (p :: ps) = true) : safePairs ps = true := by
  apply List.all_eq_true.mpr
  intro x hx
  exact List.all_eq_true.mp h x (List.mem_cons_of_mem p hx)

/-- Helper: a canonical object ends with the closing brace. -/
theorem mkObj_getLast (q s : List Char) : (mkObj q s).getLast? = some cbr := by
  unfold mkObj
  rw [List.getLast?_append_of_ne_nil _ (show chunkC ≠ [] by decide)]
  decide

/-- Helper: a nonempty canonical object list ends with the closing brace. -/
theorem objsStr_getLast : ∀ (ps : List (List Char × List Char)) (p : List Char × List Char),
    (objsStr (p :: ps)).getLast? = some cbr := by
  intro ps
  induction ps with
  | nil => intro p; rw [objsStr]; exact mkObj_getLast p.1 p.2
  | cons q rest ih =>
    intro p
    rw [objsStr]
    have hne : objsStr (q :: rest) ≠ [] := by
      intro he
      have h2 := ih q
      rw [he] at h2
      cases h2
    rw [List.getLast?_append_of_ne_nil _ hne]
    exact ih q

/-- Helper: a normalized object ends with the closing brace. -/
theorem normObj_getLast (q s : List Char) : (normObj q s).getLast? = some cbr := by
  unfold normObj
  rw [List.getLast?_append_of_ne_nil _ (show chunkC2 ≠ [] by decide)]
  decide

/-- Helper: a nonempty normalized object list ends with the closing brace. -/
theorem normObjsStr_getLast : ∀ (ps : List (List Char × List Char)) (p : List Char × List Char),
    (normObjsStr (p :: ps)).getLast? = some cbr := by
  intro ps
  induction ps with
  | nil => intro p; rw [normObjsStr]; exact normObj_getLast p.1 p.2
  | cons q rest ih =>
    intro p
    rw [normObjsStr]
    have hne : normObjsStr (q :: rest) ≠ [] := by
      intro he
      have h2 := ih q
      rw [he] at h2
      cases h2
    rw [List.getLast?_append_of_ne_nil _ hne]
    exact ih q

/-- Helper: a normalized value form never ends in a comma. -/
theorem valFormN_getLast_ne_comma (v : List Char) :
    ∀ z, (valFormN v).getLast? = some z → ¬z = ',' := by
  intro z hz he
  subst he
  rcases valFormN_getLast v with h | h <;>
    (rw [h] at hz; exact absurd (Option.some.inj hz) (by decide))

/-- Helper: the `,"` pattern is absent from a canonical object. -/
theorem hasSub_cq_mkObj (q s : List Char) (hq : safeVal q = true) (hs : safeVal s = true) :
    hasSub [',', '"'] (mkObj q s) = false := by
  unfold mkObj
  simp only [List.append_assoc]
  apply hasSub_two_append
  · decide
  · apply hasSub_two_append
    · exact hasSub_cq_safe q hq
    · apply hasSub_two_append
      · decide
      · apply hasSub_two_append
        · exact hasSub_cq_safe s hs
        · decide
        · exact no_cq_boundary _ _ (safe_getLast_ne_comma s hs)
      · exact no_cq_boundary _ _ (by intro z hz he; subst he; revert hz; decide)
    · exact no_cq_boundary _ _ (safe_getLast_ne_comma q hq)
  · exact no_cq_boundary _ _ (by intro z hz he; subst he; revert hz; decide)

/-- Helper: the `,"` pattern is absent from the canonical object list. -/
theorem hasSub_cq_objsStr : ∀ ps, safePairs ps = true →
    hasSub [',', '"'] (objsStr ps) = false := by
  intro ps
  induction ps with
  | nil => intro _; decide
  | cons p ps ih =>
    intro hsafe
    have hp := safePairs_head p ps hsafe
    have hps := safePairs_tail p ps hsafe
    cases ps with
    | nil => rw [objsStr]; exact hasSub_cq_mkObj p.1 p.2 hp.1 hp.2
    | cons q rest =>
      rw [objsStr]
      simp only [List.append_assoc]
      apply hasSub_two_append
      · exact hasSub_cq_mkObj p.1 p.2 hp.1 hp.2
      · apply hasSub_two_append
        · decide
        · exact ih hps
        · exact no_cq_boundary _ _ (by intro z hz he; subst he; revert hz; decide)
      · exact no_cq_boundary _ _ (by
          intro z hz he
          subst he
          rw [mkObj_getLast p.1 p.2] at hz
          exact absurd (Option.some.inj hz) (by decide))

/-- Helper: the `,"` pattern is absent from a canonical string. -/
theorem hasSub_cq_mkCanonical (ps : List (List Char × List Char))
    (hsafe : safePairs ps = true) : hasSub [',', '"'] (mkCanonical ps) = false := by
  unfold mkCanonical
  rw [hasSub_two_cons_ne _ _ _ _ (by decide)]
  apply hasSub_two_append
  · exact hasSub_cq_objsStr ps hsafe
  · decide
  · cases ps with
    | nil => rintro ⟨h1, -⟩; exact absurd h1 (by decide)
    | cons p ps' =>
      rintro ⟨h1, -⟩
      rw [objsStr_getLast ps' p] at h1
      exact absurd (Option.some.inj h1) (by decide)

/-- Helper: the `,"` pattern is absent from a normalized object. -/
theorem hasSub_cq_normObj (q s : List Char) (hq : safeVal q = true) (hs : safeVal s = true) :
    hasSub [',', '"'] (normObj q s) = false := by
  unfold normObj
  simp only [List.append_assoc]
  apply hasSub_two_append
  · decide
  · apply hasSub_two_append
    · exact hasSub_cq_valFormN q hq
    · apply hasSub_two_append
      · decide
      · apply hasSub_two_append
        · exact hasSub_cq_valFormN s hs
        · decide
        · exact no_cq_boundary _ _ (valFormN_getLast_ne_comma s)
      · exact no_cq_boundary _ _ (by intro z hz he; subst he; revert hz; decide)
    · exact no_cq_boundary _ _ (valFormN_getLast_ne_comma q)
  · exact no_cq_boundary _ _ (by intro z hz he; subst he; revert hz; decide)

/-- Helper: the `,"` pattern is absent from the normalized object list. -/
theorem hasSub_cq_normObjsStr : ∀ ps, safePairs ps = true →
    hasSub [',', '"'] (normObjsStr ps) = false := by
  intro ps
  induction ps with
  | nil => intro _; decide
  | cons p ps ih =>
    intro hsafe
    have hp := safePairs_head p ps hsafe
    have hps := safePairs_tail p ps hsafe
    cases ps with
    | nil => rw [normObjsStr]; exact hasSub_cq_normObj p.1 p.2 hp.1 hp.2
    | cons q rest =>
      rw [normObjsStr]
      simp only [List.append_assoc]
      apply hasSub_two_append
      · exact hasSub_cq_normObj p.1 p.2 hp.1 hp.2
      · apply hasSub_two_append
        · decide
        · exact ih hps
        · exact no_cq_boundary _ _ (by intro z hz he; subst he; revert hz; decide)
      · exact no_cq_boundary _ _ (by
          intro z hz he
          subst he
          rw [normObj_getLast p.1 p.2] at hz
          exact absurd (Option.some.inj hz) (by decide))

/-- Helper: the `,"` pattern is absent from a normalized string. -/
theorem hasSub_cq_mkNormalized (ps : List (List Char × List Char))
    (hsafe : safePairs ps = true) : hasSub [',', '"'] (mkNormalized ps) = false := by
  unfold mkNormalized
  rw [hasSub_two_cons_ne _ _ _ _ (by decide)]
  apply hasSub_two_append
  · exact hasSub_cq_normObjsStr ps hsafe
  · decide
  · cases ps with
    | nil => rintro ⟨h1, -⟩; exact absurd h1 (by decide)
    | cons p ps' =>
      rintro ⟨h1, -⟩
      rw [normObjsStr_getLast ps' p] at h1
      exact absurd (Option.some.inj h1) (by decide)

/-- Helper: the quote scan in skip mode drops exactly the skipped
characters. -/
theorem replaceQuotesAux_skip :
    ∀ (a b : List Char), replaceQuotesAux a.length (a ++ b) = replaceQuotesAux 0 b := by
  intro a
  induction a with
  | nil => intro b; rfl
  | cons x a' ih =>
    intro b
    simp only [List.length_cons, List.cons_append]
    rw [replaceQuotesAux]
    exact ih b

/-- Helper: no match starts at a character other than a double quote. -/
theorem matchWordAt_ne (c : Char) (rest : List Char) (h : ¬c = '"') :
    matchWordAt c rest = none := by
  unfold matchWordAt
  rw [if_neg h]

/-- Helper: the quote scan copies a quote-free segment verbatim. -/
theorem rq_skip_noquote :
    ∀ (a b : List Char), '"' ∉ a →
      replaceQuotesAux 0 (a ++ b) = a ++ replaceQuotesAux 0 b := by
  intro a
  induction a with
  | nil => intro b _; rfl
  | cons x a' ih =>
    intro b hq
    have hx : ¬x = '"' := fun he => hq (he ▸ List.mem_cons_self x a')
    rw [List.cons_append, replaceQuotesAux, matchWordAt_ne x _ hx, List.cons_append]
    rw [ih b fun hmem => hq (List.mem_cons_of_mem x hmem)]

/-- Helper: one step of the boundary test. -/
theorem blockedBy_cons (p : Char) (pre : List Char) (c : Char) (t : List Char) :
    blockedBy (p :: pre) (c :: t) = if p = c then blockedBy pre t else false := by
  by_cases h : p = c <;> simp [blockedBy, lpre, h]

/-- Helper: the boundary test against a longer pattern fails on the empty
text. -/
theorem blockedBy_nil (p : Char) (pre : List Char) :
    blockedBy (p :: pre) [] = false := by
  simp [blockedBy, lpre]

/-- Helper: the lookahead of `_replace_quotes`, evaluated at a value whose
tail is its closing double quote, only depends on the value, because the
letters of the protected keys never match a double quote. -/
theorem blockedBy_append_quote (pre : List Char) (hq : '"' ∉ pre) :
    ∀ (v rest : List Char), blockedBy pre (v ++ '"' :: rest) = blockedBy pre v := by
  induction pre with
  | nil =>
    intro v rest
    cases v with
    | nil => simp [blockedBy, lpre]; decide
    | cons c v' => simp [blockedBy, lpre]
  | cons p pre' ih =>
    intro v rest
    cases v with
    | nil =>
      have hp : ¬p = '"' := fun he => hq (he ▸ List.mem_cons_self p pre')
      rw [List.nil_append, blockedBy_cons, if_neg hp, blockedBy_nil]
    | cons c v' =>
      rw [List.cons_append, blockedBy_cons, blockedBy_cons,
        ih (fun hmem => hq (List.mem_cons_of_mem p hmem)) v' rest]

/-- Helper: the full lookahead at a value position equals the value-level
lookahead. -/
theorem qsLookahead_value (v rest : List Char) :
    qsLookahead (v ++ '"' :: rest) = qsBlocked v := by
  unfold qsLookahead qsBlocked
  rw [blockedBy_append_quote keyQuery (by decide) v rest,
    blockedBy_append_quote keySummary (by decide) v rest]

/-- Helper: a blocked lookahead kills the match. -/
theorem matchWordAt_none_of_lookahead (t : List Char) (h : qsLookahead t = true) :
    matchWordAt '"' t = none := by
  unfold matchWordAt
  rw [if_pos rfl]
  cases htw : t.takeWhile isWordHyphen with
  | nil => rfl
  | cons c0 w' =>
    by_cases hw : isWordChar c0
    · simp [matchWordTail, hw, h]
    · simp [matchWordTail, hw]

/-- Helper: a safe value contains no double quote. -/
theorem quote_not_mem_safe (v : List Char) (hv : safeVal v = true) : '"' ∉ v := by
  intro hm
  exact absurd (List.all_eq_true.mp hv '"' hm) (by decide)

/-- Helper: a list all of whose characters satisfy the predicate is its own
longest prefix under it. -/
theorem takeWhile_eq_self_of_all (p : Char → Bool) :
    ∀ l : List Char, l.all p = true → l.takeWhile p = l := by
  intro l
  induction l with
  | nil => intro _; rfl
  | cons c rest ih =>
    intro h
    rw [List.all_cons, Bool.and_eq_true] at h
    rw [List.takeWhile_cons, if_pos h.1, ih h.2]

/-- Helper: the maximal word run at a word-run value stops at the closing
quote. -/
theorem takeWhile_word_value (v rest : List Char) (hv : v.all isWordHyphen = true) :
    (v ++ '"' :: rest).takeWhile isWordHyphen = v := by
  rw [List.takeWhile_append_of_pos (fun x hx => List.all_eq_true.mp hv x hx),
    List.takeWhile_cons, if_neg (by decide), List.append_nil]

/-- Helper: a head failing the class empties the take. -/
theorem takeWhile_nil_of_head (p : Char → Bool) (l : List Char) (c : Char)
    (hc : l.head? = some c) (hp : p c = false) : l.takeWhile p = [] := by
  cases l with
  | nil => rfl
  | cons x rest =>
    rw [List.head?_cons, Option.some.injEq] at hc
    subst hc
    rw [List.takeWhile_cons, hp]
    rfl

/-- Helper: the components of a matched word run. -/
theorem wordish_parts (c0 : Char) (v' : List Char) (h : wordish (c0 :: v') = true) :
    isWordChar c0 = true ∧ (c0 :: v').all isWordHyphen = true ∧
      isWordChar ((c0 :: v').getLastD 'a') = true := by
  unfold wordish at h
  rw [Bool.and_eq_true, Bool.and_eq_true] at h
  exact ⟨h.1.1, h.1.2, h.2⟩

/-- Helper: building a matched word run. -/
theorem wordish_intro (c0 : Char) (v' : List Char) (h1 : isWordChar c0 = true)
    (h2 : (c0 :: v').all isWordHyphen = true)
    (h3 : isWordChar ((c0 :: v').getLastD 'a') = true) :
    wordish (c0 :: v') = true := by
  show (isWordChar c0 && (c0 :: v').all isWordHyphen &&
    isWordChar ((c0 :: v').getLastD 'a')) = true
  rw [h1, h2, h3]
  rfl

/-- Helper: the regex matches exactly the value at a word-run value
position. -/
theorem matchWordAt_value_match (v rest : List Char) (hw : wordish v = true)
    (hnb : qsBlocked v = false) :
    matchWordAt '"' (v ++ '"' :: rest) = some v := by
  cases v with
  | nil => exact absurd hw (by simp [wordish])
  | cons c0 v' =>
    obtain ⟨h1, h2, h3⟩ := wordish_parts c0 v' hw
    unfold matchWordAt
    rw [if_pos rfl, takeWhile_word_value _ rest h2, matchWordTail]
    rw [if_neg (by rw [h1]; simp), if_neg (by rw [qsLookahead_value, hnb]; simp)]
    have hdrop : ((c0 :: v') ++ '"' :: rest).drop (c0 :: v').length = '"' :: rest :=
      List.drop_left _ _
    rw [hdrop]
    exact if_pos ⟨rfl, h3⟩

/-- Helper: the regex does not match at a value position that is not an
unblocked word run. -/
theorem matchWordAt_value_none (v rest : List Char) (hv : safeVal v = true)
    (hnm : ¬(wordish v = true ∧ qsBlocked v = false)) :
    matchWordAt '"' (v ++ '"' :: rest) = none := by
  by_cases hb : qsBlocked v = true
  · exact matchWordAt_none_of_lookahead _ (by rw [qsLookahead_value, hb])
  · have hnb : qsBlocked v = false := by
      cases hq : qsBlocked v
      · rfl
      · exact absurd hq hb
    have hnw : ¬wordish v = true := fun hw => hnm ⟨hw, hnb⟩
    unfold matchWordAt
    rw [if_pos rfl]
    cases hd : v.dropWhile isWordHyphen with
    | nil =>
      have hall : v.all isWordHyphen = true := by
        apply List.all_eq_true.mpr
        intro x hx
        have : x ∈ v.takeWhile isWordHyphen := by
          rw [← List.takeWhile_append_dropWhile (p := isWordHyphen) (l := v), hd,
            List.append_nil] at hx
          exact hx
        exact List.mem_takeWhile_imp this
      rw [takeWhile_word_value v rest hall]
      cases v with
      | nil => rfl
      | cons c0 v' =>
        rw [matchWordTail]
        by_cases h1 : isWordChar c0 = true
        · rw [if_neg (by rw [h1]; simp), if_neg (by rw [qsLookahead_value, hnb]; simp)]
          have hdrop : ((c0 :: v') ++ '"' :: rest).drop (c0 :: v').length = '"' :: rest :=
            List.drop_left _ _
          rw [hdrop]
          refine if_neg ?_
          rintro ⟨-, h3⟩
          exact hnw (wordish_intro c0 v' h1 hall h3)
        · rw [if_pos (by simp [h1])]
    | cons x t =>
      have hx : isWordHyphen x = false := by
        have := List.head?_dropWhile_not isWordHyphen v
        rw [hd] at this
        simpa using this
      have hxs : safeChar x = true := by
        apply List.all_eq_true.mp hv x
        have : x ∈ v.takeWhile isWordHyphen ++ v.dropWhile isWordHyphen := by
          rw [hd]
          exact List.mem_append_right _ (List.mem_cons_self x t)
        rwa [List.takeWhile_append_dropWhile] at this
      have hxq : ¬x = '"' := by
        intro he
        subst he
        exact absurd hxs (by decide)
      have hsplit : v = v.takeWhile isWordHyphen ++ x :: t := by
        conv_lhs => rw [← List.takeWhile_append_dropWhile (p := isWordHyphen) (l := v)]
        rw [hd]
      have htake : (v ++ '"' :: rest).takeWhile isWordHyphen = v.takeWhile isWordHyphen := by
        have hv2 : v ++ '"' :: rest = v.takeWhile isWordHyphen ++ (x :: (t ++ '"' :: rest)) := by
          conv_lhs => rw [hsplit]
          simp [List.append_assoc]
        rw [hv2, List.takeWhile_append_of_pos (fun a ha => List.mem_takeWhile_imp ha),
          List.takeWhile_cons, hx]
        simp
      rw [htake]
      cases hw : v.takeWhile isWordHyphen with
      | nil => rfl
      | cons c0 w' =>
        rw [matchWordTail]
        by_cases h1 : isWordChar c0 = true
        · rw [if_neg (by rw [h1]; simp), if_neg (by rw [qsLookahead_value, hnb]; simp)]
          have hdrop : (v ++ '"' :: rest).drop (c0 :: w').length = x :: (t ++ '"' :: rest) := by
            have hv2 : v ++ '"' :: rest = (c0 :: w') ++ (x :: (t ++ '"' :: rest)) := by
              conv_lhs => rw [hsplit, hw]
              simp [List.append_assoc]
            rw [hv2]
            exact List.drop_left _ _
          rw [hdrop]
          refine if_neg ?_
          rintro ⟨h2, -⟩
          exact hxq h2
        · rw [if_pos (by simp [h1])]

/-- Helper: one unfolding of the quote scan at a quote. -/
theorem replaceQuotesAux_quote (l : List Char) :
    replaceQuotesAux 0 ('"' :: l) =
      match matchWordAt '"' l with
      | some w => quoteResult w ++ replaceQuotesAux (w.length + 1) l
      | none => '"' :: replaceQuotesAux 0 l := rfl

/-- Helper: the quote scan at a protected key keeps the key quoted and
continues after its closing quote (the text after the key starts with a
colon). -/
theorem rq_key_step (key rest : List Char) (hkey : key = keyQuery ∨ key = keySummary)
    (hrest : rest.head? = some ':') :
    replaceQuotesAux 0 ('"' :: (key ++ '"' :: rest)) =
      '"' :: (key ++ '"' :: replaceQuotesAux 0 rest) := by
  have hblocked : qsBlocked key = true := by
    rcases hkey with he | he <;> (subst he; decide)
  have hnone := matchWordAt_none_of_lookahead (key ++ '"' :: rest)
    (by rw [qsLookahead_value, hblocked])
  have hnq : '"' ∉ key := by
    rcases hkey with he | he <;> (subst he; decide)
  have hnone2 : matchWordAt '"' rest = none := by
    unfold matchWordAt
    rw [if_pos rfl, takeWhile_nil_of_head isWordHyphen rest ':' hrest (by decide)]
    rfl
  calc replaceQuotesAux 0 ('"' :: (key ++ '"' :: rest))
      = '"' :: replaceQuotesAux 0 (key ++ '"' :: rest) := by
        rw [replaceQuotesAux_quote, hnone]
    _ = '"' :: (key ++ replaceQuotesAux 0 ('"' :: rest)) := by
        rw [rq_skip_noquote key _ hnq]
    _ = '"' :: (key ++ '"' :: replaceQuotesAux 0 rest) := by
        rw [replaceQuotesAux_quote, hnone2]

/-- Helper: the quote scan at a safe value position rewrites the value to its
intermediate form and continues after its closing quote (the text after the
value starts with a comma or a closing brace). -/
theorem rq_value_step (v rest : List Char) (hv : safeVal v = true)
    (hrest : rest.head? = some ',' ∨ rest.head? = some cbr) :
    replaceQuotesAux 0 ('"' :: (v ++ '"' :: rest)) =
      valFormQ v ++ replaceQuotesAux 0 rest := by
  have hnone2 : matchWordAt '"' rest = none := by
    unfold matchWordAt
    rw [if_pos rfl]
    rcases hrest with h | h
    · rw [takeWhile_nil_of_head isWordHyphen rest ',' h (by decide)]; rfl
    · rw [takeWhile_nil_of_head isWordHyphen rest cbr h (by decide)]; rfl
  by_cases hm : wordish v = true ∧ qsBlocked v = false
  · have hmatch := matchWordAt_value_match v rest hm.1 hm.2
    have hne : ¬(v = keyQuery ∨ v = keySummary) := by
      rintro (he | he) <;> (subst he; exact absurd hm.2 (by decide))
    calc replaceQuotesAux 0 ('"' :: (v ++ '"' :: rest))
        = quoteResult v ++ replaceQuotesAux (v.length + 1) (v ++ '"' :: rest) := by
          rw [replaceQuotesAux_quote, hmatch]
      _ = quoteResult v ++ replaceQuotesAux 0 rest := by
          congr 1
          have h1 : v ++ '"' :: rest = (v ++ ['"']) ++ rest := by simp
          have h2 : v.length + 1 = (v ++ ['"']).length := by simp
          rw [h1, h2]
          exact replaceQuotesAux_skip (v ++ ['"']) rest
      _ = valFormQ v ++ replaceQuotesAux 0 rest := by
          congr 1
          unfold quoteResult valFormQ
          rw [if_neg hne, if_pos (by rw [hm.1, hm.2]; rfl)]
  · have hnone := matchWordAt_value_none v rest hv hm
    have hform : valFormQ v = '"' :: v ++ ['"'] := by
      unfold valFormQ
      rw [if_neg]
      intro hb
      rw [Bool.and_eq_true] at hb
      exact hm ⟨hb.1, by simpa using hb.2⟩
    calc replaceQuotesAux 0 ('"' :: (v ++ '"' :: rest))
        = '"' :: replaceQuotesAux 0 (v ++ '"' :: rest) := by
          rw [replaceQuotesAux_quote, hnone]
      _ = '"' :: (v ++ replaceQuotesAux 0 ('"' :: rest)) := by
          rw [rq_skip_noquote v _ (quote_not_mem_safe v hv)]
      _ = '"' :: (v ++ '"' :: replaceQuotesAux 0 rest) := by
          rw [replaceQuotesAux_quote, hnone2]
      _ = valFormQ v ++ replaceQuotesAux 0 rest := by
          rw [hform]
          simp

/-- Helper: the first canonical chunk, exposing the protected key. -/
theorem chunkA_eq : chunkA = obr :: '"' :: (keyQuery ++ ['"', ':', ' ', '"']) := rfl

/-- Helper: the middle canonical chunk, exposing the protected key. -/
theorem chunkB_eq : chunkB = '"' :: ',' :: ' ' :: '"' :: (keySummary ++ ['"', ':', ' ', '"']) := rfl

/-- Helper: the closing canonical chunk. -/
theorem chunkC_eq : chunkC = ['"', cbr] := rfl

/-- Helper: the first normalized chunk, exposing the protected key. -/
theorem chunkA2_eq : chunkA2 = obr :: '"' :: (keyQuery ++ ['"', ':', ' ']) := rfl

/-- Helper: the middle normalized chunk, exposing the protected key. -/
theorem chunkB2_eq : chunkB2 = ',' :: ' ' :: '"' :: (keySummary ++ ['"', ':', ' ']) := rfl

/-- Helper: the quote scan over one canonical object rewrites both values to
their intermediate forms. -/
theorem rq_mkObj (q s cont : List Char) (hq : safeVal q = true) (hs : safeVal s = true) :
    replaceQuotesAux 0 (mkObj q s ++ cont) = intObj q s ++ replaceQuotesAux 0 cont := by
  have e1 : mkObj q s ++ cont =
      obr :: ('"' :: (keyQuery ++ '"' :: (':' :: ' ' :: ('"' :: (q ++ '"' ::
        (',' :: ' ' :: ('"' :: (keySummary ++ '"' :: (':' :: ' ' :: ('"' ::
          (s ++ '"' :: (cbr :: cont)))))))))))) := by
    simp only [mkObj, chunkA_eq, chunkB_eq, chunkC_eq, List.append_assoc,
      List.cons_append, List.nil_append]
  rw [e1]
  rw [show ∀ l, replaceQuotesAux 0 (obr :: l) = obr :: replaceQuotesAux 0 l from
    fun l => rq_skip_noquote [obr] l (by decide)]
  rw [rq_key_step keyQuery _ (Or.inl (by rfl)) (by rfl)]
  rw [show ∀ l, replaceQuotesAux 0 (':' :: ' ' :: l) = ':' :: ' ' :: replaceQuotesAux 0 l from
    fun l => rq_skip_noquote [':', ' '] l (by decide)]
  rw [rq_value_step q _ hq (Or.inl (by rfl))]
  rw [show ∀ l, replaceQuotesAux 0 (',' :: ' ' :: l) = ',' :: ' ' :: replaceQuotesAux 0 l from
    fun l => rq_skip_noquote [',', ' '] l (by decide)]
  rw [rq_key_step keySummary _ (Or.inr (by rfl)) (by rfl)]
  rw [show ∀ l, replaceQuotesAux 0 (':' :: ' ' :: l) = ':' :: ' ' :: replaceQuotesAux 0 l from
    fun l => rq_skip_noquote [':', ' '] l (by decide)]
  rw [rq_value_step s _ hs (Or.inr (by rfl))]
  rw [show ∀ l, replaceQuotesAux 0 (cbr :: l) = cbr :: replaceQuotesAux 0 l from
    fun l => rq_skip_noquote [cbr] l (by decide)]
  simp only [intObj, chunkA2_eq, chunkB2_eq, chunkC2, List.append_assoc,
    List.cons_append, List.nil_append]

/-- Helper: the quote scan over the canonical object list produces the
intermediate object list. -/
theorem rq_objsStr : ∀ ps, safePairs ps = true →
    replaceQuotesAux 0 (objsStr ps ++ [']']) = intObjsStr ps ++ [']'] := by
  intro ps
  induction ps with
  | nil => intro _; rfl
  | cons p ps ih =>
    intro hsafe
    have hp := safePairs_head p ps hsafe
    have hps := safePairs_tail p ps hsafe
    cases ps with
    | nil =>
      rw [objsStr, intObjsStr, rq_mkObj p.1 p.2 [']'] hp.1 hp.2]
      rfl
    | cons p2 rest =>
      rw [objsStr, intObjsStr]
      simp only [List.append_assoc]
      rw [rq_mkObj p.1 p.2 _ hp.1 hp.2]
      congr 1
      rw [show sepOb ++ (objsStr (p2 :: rest) ++ [']']) =
        ',' :: ' ' :: (objsStr (p2 :: rest) ++ [']']) from rfl]
      rw [show ∀ l, replaceQuotesAux 0 (',' :: ' ' :: l) = ',' :: ' ' :: replaceQuotesAux 0 l
        from fun l => rq_skip_noquote [',', ' '] l (by decide)]
      rw [ih hps]
      rfl

/-- Helper: `_replace_quotes` on a canonical string produces the intermediate
string. -/
theorem rq_mkCanonical (ps : List (List Char × List Char)) (hsafe : safePairs ps = true) :
    replaceQuotes (mkCanonical ps) = mkIntermediate ps := by
  unfold replaceQuotes mkCanonical mkIntermediate
  rw [show ∀ l, replaceQuotesAux 0 ('[' :: l) = '[' :: replaceQuotesAux 0 l from
    fun l => rq_skip_noquote ['['] l (by decide)]
  rw [rq_objsStr ps hsafe]

/-- Helper: the quote scan passes a normalized value form unchanged (the text
after it starts with a comma or a closing brace). -/
theorem rq_valFormN_step (v rest : List Char) (hv : safeVal v = true)
    (hrest : rest.head? = some ',' ∨ rest.head? = some cbr) :
    replaceQuotesAux 0 (valFormN v ++ rest) = valFormN v ++ replaceQuotesAux 0 rest := by
  by_cases hc : (wordish v && !qsBlocked v) = true
  · have hform : valFormN v = (' ' :: v) ++ [' '] := by unfold valFormN; rw [if_pos hc]
    rw [hform]
    apply rq_skip_noquote
    intro hm
    rcases List.mem_cons.mp hm with h | hm2
    · cases h
    · rcases List.mem_append.mp hm2 with h | h
      · exact quote_not_mem_safe v hv h
      · rw [List.mem_singleton] at h; cases h
  · have hform : valFormN v = ('"' :: v) ++ ['"'] := by
      unfold valFormN
      rw [if_neg hc]
    have hcond : ¬(wordish v = true ∧ qsBlocked v = false) := by
      rintro ⟨h1, h2⟩
      exact hc (by rw [h1, h2]; rfl)
    have hformQ : valFormQ v = ('"' :: v) ++ ['"'] := by
      unfold valFormQ
      rw [if_neg hc]
    calc replaceQuotesAux 0 (valFormN v ++ rest)
        = replaceQuotesAux 0 ('"' :: (v ++ '"' :: rest)) := by
          rw [hform, List.append_assoc]
          rfl
      _ = valFormQ v ++ replaceQuotesAux 0 rest := rq_value_step v rest hv hrest
      _ = valFormN v ++ replaceQuotesAux 0 rest := by rw [hformQ, hform]

/-- Helper: the quote scan passes a normalized object unchanged. -/
theorem rq_normObj (q s cont : List Char) (hq : safeVal q = true) (hs : safeVal s = true) :
    replaceQuotesAux 0 (normObj q s ++ cont) = normObj q s ++ replaceQuotesAux 0 cont := by
  have e1 : normObj q s ++ cont =
      obr :: ('"' :: (keyQuery ++ '"' :: (':' :: ' ' :: (valFormN q ++
        (',' :: ' ' :: ('"' :: (keySummary ++ '"' :: (':' :: ' ' :: (valFormN s ++
          (cbr :: cont)))))))))) := by
    simp only [normObj, chunkA2_eq, chunkB2_eq, chunkC2, List.append_assoc,
      List.cons_append, List.nil_append]
  rw [e1]
  rw [show ∀ l, replaceQuotesAux 0 (obr :: l) = obr :: replaceQuotesAux 0 l from
    fun l => rq_skip_noquote [obr] l (by decide)]
  rw [rq_key_step keyQuery _ (Or.inl (by rfl)) (by rfl)]
  rw [show ∀ l, replaceQuotesAux 0 (':' :: ' ' :: l) = ':' :: ' ' :: replaceQuotesAux 0 l from
    fun l => rq_skip_noquote [':', ' '] l (by decide)]
  rw [rq_valFormN_step q _ hq (Or.inl (by rfl))]
  rw [show ∀ l, replaceQuotesAux 0 (',' :: ' ' :: l) = ',' :: ' ' :: replaceQuotesAux 0 l from
    fun l => rq_skip_noquote [',', ' '] l (by decide)]
  rw [rq_key_step keySummary _ (Or.inr (by rfl)) (by rfl)]
  rw [show ∀ l, replaceQuotesAux 0 (':' :: ' ' :: l) = ':' :: ' ' :: replaceQuotesAux 0 l from
    fun l => rq_skip_noquote [':', ' '] l (by decide)]
  rw [rq_valFormN_step s _ hs (Or.inr (by rfl))]
  rw [show ∀ l, replaceQuotesAux 0 (cbr :: l) = cbr :: replaceQuotesAux 0 l from
    fun l => rq_skip_noquote [cbr] l (by decide)]
  simp only [normObj, chunkA2_eq, chunkB2_eq, chunkC2, List.append_assoc,
    List.cons_append, List.nil_append]

/-- Helper: the quote scan passes the normalized object list unchanged. -/
theorem rq_normObjsStr : ∀ ps, safePairs ps = true →
    replaceQuotesAux 0 (normObjsStr ps ++ [']']) = normObjsStr ps ++ [']'] := by
  intro ps
  induction ps with
  | nil => intro _; rfl
  | cons p ps ih =>
    intro hsafe
    have hp := safePairs_head p ps hsafe
    have hps := safePairs_tail p ps hsafe
    cases ps with
    | nil =>
      rw [normObjsStr, rq_normObj p.1 p.2 [']'] hp.1 hp.2]
      rfl
    | cons p2 rest =>
      rw [normObjsStr]
      simp only [List.append_assoc]
      rw [rq_normObj p.1 p.2 _ hp.1 hp.2]
      congr 1
      rw [show sepOb ++ (normObjsStr (p2 :: rest) ++ [']']) =
        ',' :: ' ' :: (normObjsStr (p2 :: rest) ++ [']']) from rfl]
      rw [show ∀ l, replaceQuotesAux 0 (',' :: ' ' :: l) = ',' :: ' ' :: replaceQuotesAux 0 l
        from fun l => rq_skip_noquote [',', ' '] l (by decide)]
      rw [ih hps]

/-- Helper: `_replace_quotes` leaves a normalized string unchanged. -/
theorem rq_mkNormalized (ps : List (List Char × List Char)) (hsafe : safePairs ps = true) :
    replaceQuotes (mkNormalized ps) = mkNormalized ps := by
  unfold replaceQuotes mkNormalized
  rw [show ∀ l, replaceQuotesAux 0 ('[' :: l) = '[' :: replaceQuotesAux 0 l from
    fun l => rq_skip_noquote ['['] l (by decide)]
  rw [rq_normObjsStr ps hsafe]

/-- Helper: a safe value contains no apostrophe. -/
theorem apos_not_mem_safe (v : List Char) (hv : safeVal v = true) : apos ∉ v := by
  intro hm
  exact absurd (List.all_eq_true.mp hv apos hm) (by decide)

/-- Helper: the apostrophe replacement turns an intermediate value form into
its normalized form. -/
theorem map_apos_valFormQ (v : List Char) (hv : safeVal v = true) :
    (valFormQ v).map (fun x => if x = apos then ' ' else x) = valFormN v := by
  unfold valFormQ valFormN
  split
  · rw [show (apos :: v) ++ [apos] = apos :: (v ++ [apos]) from rfl]
    simp only [List.map_cons, List.map_append, if_pos rfl]
    rw [map_replace_id apos ' ' v (apos_not_mem_safe v hv)]
    rfl
  · rw [show ('"' :: v) ++ ['"'] = '"' :: (v ++ ['"']) from rfl]
    simp only [List.map_cons, List.map_append, if_neg (by decide : ¬ '"' = apos)]
    rw [map_replace_id apos ' ' v (apos_not_mem_safe v hv)]
    rfl

/-- Helper: the apostrophe replacement turns an intermediate object into its
normalized object. -/
theorem map_apos_intObj (q s : List Char) (hq : safeVal q = true) (hs : safeVal s = true) :
    (intObj q s).map (fun x => if x = apos then ' ' else x) = normObj q s := by
  unfold intObj normObj
  simp only [List.map_append]
  rw [map_replace_id apos ' ' chunkA2 (by decide), map_replace_id apos ' ' chunkB2 (by decide),
    map_replace_id apos ' ' chunkC2 (by decide), map_apos_valFormQ q hq, map_apos_valFormQ s hs]

/-- Helper: the apostrophe replacement turns the intermediate object list
into the normalized object list. -/
theorem map_apos_intObjsStr : ∀ ps, safePairs ps = true →
    (intObjsStr ps).map (fun x => if x = apos then ' ' else x) = normObjsStr ps := by
  intro ps
  induction ps with
  | nil => intro _; rfl
  | cons p ps ih =>
    intro hsafe
    have hp := safePairs_head p ps hsafe
    have hps := safePairs_tail p ps hsafe
    cases ps with
    | nil =>
      rw [intObjsStr, normObjsStr]
      exact map_apos_intObj p.1 p.2 hp.1 hp.2
    | cons p2 rest =>
      rw [intObjsStr, normObjsStr]
      simp only [List.map_append]
      rw [map_apos_intObj p.1 p.2 hp.1 hp.2, map_replace_id apos ' ' sepOb (by decide),
        ih hps]

/-- Helper: the apostrophe replacement turns an intermediate string into its
normalized string. -/
theorem replace_apos_mkIntermediate (ps : List (List Char × List Char))
    (hsafe : safePairs ps = true) :
    replaceSub [apos] (cs " ") (mkIntermediate ps) = mkNormalized ps := by
  have hsp : cs " " = [' '] := rfl
  rw [hsp, replaceSub_single apos ' ' (mkIntermediate ps)]
  unfold mkIntermediate mkNormalized
  simp only [List.map_cons, List.map_append]
  rw [if_neg (by decide : ¬ '[' = apos), map_apos_intObjsStr ps hsafe]
  rfl

/-- Helper: the brace-comma scan copies a brace-free segment verbatim. -/
theorem bc_skip : ∀ (a b : List Char), cbr ∉ a →
    braceComma (a ++ b) = a ++ braceComma b := by
  intro a
  induction a with
  | nil => intro b _; rfl
  | cons x a' ih =>
    intro b hc
    have hx : ¬x = cbr := fun he => hc (he ▸ List.mem_cons_self x a')
    rw [List.cons_append, braceComma, if_neg (fun hand => hx hand.1),
      ih b fun hm => hc (List.mem_cons_of_mem x hm)]
    rfl

/-- Helper: the brace-comma scan passes a closing brace whose successor is
neither whitespace nor an opening brace. -/
theorem bc_step (rest : List Char) (c : Char) (hc : rest.head? = some c)
    (hs : isReSpace c = false) (hb : ¬c = obr) :
    braceComma (cbr :: rest) = cbr :: braceComma rest := by
  rw [braceComma]
  rw [if_neg]
  rintro ⟨-, h2⟩
  cases rest with
  | nil => cases hc
  | cons d rest' =>
    rw [List.head?_cons, Option.some.injEq] at hc
    subst hc
    rw [List.dropWhile_cons, hs] at h2
    simp only [Bool.false_eq_true, if_false, List.head?_cons, Option.some.injEq] at h2
    exact hb h2

/-- Helper: the closing brace is absent from a normalized value form. -/
theorem cbr_not_mem_valFormN (v : List Char) (hv : safeVal v = true) :
    cbr ∉ valFormN v := by
  intro hm
  unfold valFormN at hm
  split at hm <;>
  · rcases List.mem_cons.mp hm with h | hm2
    · exact absurd h (by decide)
    · rcases List.mem_append.mp hm2 with h | h
      · exact absurd (List.all_eq_true.mp hv cbr h) (by decide)
      · rw [List.mem_singleton] at h; exact absurd h (by decide)

/-- Helper: the brace-comma scan passes a normalized object whose successor
starts with a comma or the closing bracket. -/
theorem bc_normObj (q s cont : List Char) (hq : safeVal q = true) (hs : safeVal s = true)
    (hcont : cont.head? = some ',' ∨ cont.head? = some ']') :
    braceComma (normObj q s ++ cont) = normObj q s ++ braceComma cont := by
  have hfront : cbr ∉ chunkA2 ++ (valFormN q ++ (chunkB2 ++ valFormN s)) := by
    intro hm
    rcases List.mem_append.mp hm with h | hm2
    · revert h; decide
    · rcases List.mem_append.mp hm2 with h | hm3
      · exact cbr_not_mem_valFormN q hq h
      · rcases List.mem_append.mp hm3 with h | h
        · revert h; decide
        · exact cbr_not_mem_valFormN s hs h
  have e1 : normObj q s ++ cont =
      (chunkA2 ++ (valFormN q ++ (chunkB2 ++ valFormN s))) ++ (cbr :: cont) := by
    simp only [normObj, chunkC2, List.append_assoc, List.cons_append, List.nil_append]
  rw [e1, bc_skip _ _ hfront]
  have hstep : braceComma (cbr :: cont) = cbr :: braceComma cont := by
    rcases hcont with h | h
    · exact bc_step cont ',' h (by decide) (by decide)
    · exact bc_step cont ']' h (by decide) (by decide)
  rw [hstep]
  simp only [normObj, chunkC2, List.append_assoc, List.cons_append, List.nil_append]

/-- Helper: the brace-comma scan passes the normalized object list followed
by the closing bracket. -/
theorem bc_normObjsStr : ∀ ps, safePairs ps = true →
    braceComma (normObjsStr ps ++ [']']) = normObjsStr ps ++ [']'] := by
  intro ps
  induction ps with
  | nil => intro _; rfl
  | cons p ps ih =>
    intro hsafe
    have hp := safePairs_head p ps hsafe
    have hps := safePairs_tail p ps hsafe
    cases ps with
    | nil =>
      rw [normObjsStr, bc_normObj p.1 p.2 [']'] hp.1 hp.2 (Or.inr rfl)]
      rfl
    | cons p2 rest =>
      rw [normObjsStr]
      simp only [List.append_assoc]
      rw [bc_normObj p.1 p.2 _ hp.1 hp.2 (Or.inl (by rfl))]
      congr 1
      rw [show sepOb ++ (normObjsStr (p2 :: rest) ++ [']']) =
        ',' :: ' ' :: (normObjsStr (p2 :: rest) ++ [']']) from rfl]
      rw [show ∀ l, braceComma (',' :: ' ' :: l) = ',' :: ' ' :: braceComma l from
        fun l => bc_skip [',', ' '] l (by decide)]
      rw [ih hps]

/-- Helper: the brace-comma scan leaves a normalized string unchanged. -/
theorem bc_mkNormalized (ps : List (List Char × List Char)) (hsafe : safePairs ps = true) :
    braceComma (mkNormalized ps) = mkNormalized ps := by
  unfold mkNormalized
  rw [show ∀ l, braceComma ('[' :: l) = '[' :: braceComma l from
    fun l => bc_skip ['['] l (by decide)]
  rw [bc_normObjsStr ps hsafe]

/-- Helper: a canonical string ends with the closing bracket. -/
theorem mkCanonical_getLast (ps : List (List Char × List Char)) :
    (mkCanonical ps).getLast? = some ']' :=
  List.getLast?_concat ('[' :: objsStr ps)

/-- Helper: a normalized string ends with the closing bracket. -/
theorem mkNormalized_getLast (ps : List (List Char × List Char)) :
    (mkNormalized ps).getLast? = some ']' :=
  List.getLast?_concat ('[' :: normObjsStr ps)

/-- Helper: stripping leaves a canonical string unchanged. -/
theorem pyStrip_mkCanonical (ps : List (List Char × List Char)) :
    pyStrip (mkCanonical ps) = mkCanonical ps := by
  apply pyStrip_eq_self
  · intro c hc
    rw [show (mkCanonical ps).head? = some '[' from rfl, Option.some.injEq] at hc
    subst hc
    decide
  · intro c hc
    rw [mkCanonical_getLast, Option.some.injEq] at hc
    subst hc
    decide

/-- Helper: stripping leaves a normalized string unchanged. -/
theorem pyStrip_mkNormalized (ps : List (List Char × List Char)) :
    pyStrip (mkNormalized ps) = mkNormalized ps := by
  apply pyStrip_eq_self
  · intro c hc
    rw [show (mkNormalized ps).head? = some '[' from rfl, Option.some.injEq] at hc
    subst hc
    decide
  · intro c hc
    rw [mkNormalized_getLast, Option.some.injEq] at hc
    subst hc
    decide

/-- Helper: the instruction-marker stage leaves a canonical string
unchanged. -/
theorem afterInst_mkCanonical (ps : List (List Char × List Char))
    (hsafe : safePairs ps = true) : afterInst (mkCanonical ps) = mkCanonical ps := by
  unfold afterInst
  rw [pyStrip_mkCanonical, splitOnSub_not_hasSub _ _
    (hasSub_false_of_mem '/' instTok (by decide) _
      (fun hm => absurd (mem_mkCanonical ps hsafe '/' hm) (by decide)))]
  rfl

/-- Helper: the instruction-marker stage leaves a normalized string
unchanged. -/
theorem afterInst_mkNormalized (ps : List (List Char × List Char))
    (hsafe : safePairs ps = true) : afterInst (mkNormalized ps) = mkNormalized ps := by
  unfold afterInst
  rw [pyStrip_mkNormalized, splitOnSub_not_hasSub _ _
    (hasSub_false_of_mem '/' instTok (by decide) _
      (fun hm => absurd (mem_mkNormalized ps hsafe '/' hm) (by decide)))]
  rfl

/-- Helper: the middle replacement chain turns a canonical string into its
normalized string. -/
theorem midStages_mkCanonical (ps : List (List Char × List Char))
    (hsafe : safePairs ps = true) : midStages (mkCanonical ps) = mkNormalized ps := by
  unfold midStages
  rw [replaceSub_of_not_mem '\n' _ _ _ (by decide)
    (fun hm => absurd (mem_mkCanonical ps hsafe '\n' hm) (by decide))]
  rw [replaceSub_not_hasSub _ _ _ (hasSub_cq_mkCanonical ps hsafe)]
  rw [rq_mkCanonical ps hsafe]
  rw [replaceSub_of_not_mem (Char.ofNat 96) fenceTok _ _ (by decide)
    (fun hm => (mem_mkIntermediate ps hsafe _ hm).elim
      (fun h => absurd h (by decide)) (fun h => absurd h (by decide)))]
  rw [replaceSub_of_not_mem (Char.ofNat 96) fenceJsonTok _ _ (by decide)
    (fun hm => (mem_mkIntermediate ps hsafe _ hm).elim
      (fun h => absurd h (by decide)) (fun h => absurd h (by decide)))]
  rw [replace_apos_mkIntermediate ps hsafe]
  rw [replaceSub_of_not_mem 'â' curlyTokA _ _ (by decide)
    (fun hm => absurd (mem_mkNormalized ps hsafe 'â' hm) (by decide))]
  rw [replaceSub_of_not_mem 'â' curlyTokB _ _ (by decide)
    (fun hm => absurd (mem_mkNormalized ps hsafe 'â' hm) (by decide))]
  rw [replaceSub_of_not_mem '/' jsonObjectsTok _ _ (by decide)
    (fun hm => absurd (mem_mkNormalized ps hsafe '/' hm) (by decide))]
  exact bc_mkNormalized ps hsafe

/-- Helper: the middle replacement chain leaves a normalized string
unchanged. -/
theorem midStages_mkNormalized (ps : List (List Char × List Char))
    (hsafe : safePairs ps = true) : midStages (mkNormalized ps) = mkNormalized ps := by
  unfold midStages
  rw [replaceSub_of_not_mem '\n' _ _ _ (by decide)
    (fun hm => absurd (mem_mkNormalized ps hsafe '\n' hm) (by decide))]
  rw [replaceSub_not_hasSub _ _ _ (hasSub_cq_mkNormalized ps hsafe)]
  rw [rq_mkNormalized ps hsafe]
  rw [replaceSub_of_not_mem (Char.ofNat 96) fenceTok _ _ (by decide)
    (fun hm => absurd (mem_mkNormalized ps hsafe _ hm) (by decide))]
  rw [replaceSub_of_not_mem (Char.ofNat 96) fenceJsonTok _ _ (by decide)
    (fun hm => absurd (mem_mkNormalized ps hsafe _ hm) (by decide))]
  rw [replaceSub_of_not_mem apos [apos] _ _ (by decide)
    (fun hm => absurd (mem_mkNormalized ps hsafe apos hm) (by decide))]
  rw [replaceSub_of_not_mem 'â' curlyTokA _ _ (by decide)
    (fun hm => absurd (mem_mkNormalized ps hsafe 'â' hm) (by decide))]
  rw [replaceSub_of_not_mem 'â' curlyTokB _ _ (by decide)
    (fun hm => absurd (mem_mkNormalized ps hsafe 'â' hm) (by decide))]
  rw [replaceSub_of_not_mem '/' jsonObjectsTok _ _ (by decide)
    (fun hm => absurd (mem_mkNormalized ps hsafe '/' hm) (by decide))]
  exact bc_mkNormalized ps hsafe

/-- Helper: the transcript-marker stage leaves a normalized string
unchanged. -/
theorem transcriptStage_mkNormalized (ps : List (List Char × List Char))
    (hsafe : safePairs ps = true) :
    transcriptStage (mkNormalized ps) = mkNormalized ps := by
  unfold transcriptStage
  rw [splitOnSub_not_hasSub _ _
    (hasSub_false_of_mem '#' transcriptTok (by decide) _
      (fun hm => absurd (mem_mkNormalized ps hsafe '#' hm) (by decide)))]
  rw [show lastPart [mkNormalized ps] = mkNormalized ps from rfl]
  exact pyStrip_mkNormalized ps

/-- Helper: the final bracket check accepts a normalized string. -/
theorem finalStage_mkNormalized (ps : List (List Char × List Char)) :
    finalStage (mkNormalized ps) = some (mkNormalized ps) := by
  unfold finalStage
  rw [mkNormalized_getLast]
  rfl

/-- Helper: the normalizer sends a canonical string to its normalized
string. -/
theorem clean_canonical (ps : List (List Char × List Char))
    (hsafe : safePairs ps = true) :
    cleanResponse (mkCanonical ps) = some (mkNormalized ps) := by
  rw [cleanResponse_eq]
  have hrecon : reconstructBracket (mkCanonical ps) = mkCanonical ps := by
    rw [reconstructBracket_of_bracket (mkCanonical ps) (objsStr ps ++ [']'])
      (afterInst_mkCanonical ps hsafe), afterInst_mkCanonical ps hsafe]
  have hpre : preFinal (mkCanonical ps) = mkNormalized ps := by
    unfold preFinal
    rw [hrecon]
    rw [show branchStage (mkCanonical ps) = mkCanonical ps from branchStage_bracket _]
    rw [midStages_mkCanonical ps hsafe, transcriptStage_mkNormalized ps hsafe]
  rw [hpre, finalStage_mkNormalized]

/-- Helper: the normalizer fixes a normalized string. -/
theorem clean_normalized (ps : List (List Char × List Char))
    (hsafe : safePairs ps = true) :
    cleanResponse (mkNormalized ps) = some (mkNormalized ps) := by
  rw [cleanResponse_eq]
  have hrecon : reconstructBracket (mkNormalized ps) = mkNormalized ps := by
    rw [reconstructBracket_of_bracket (mkNormalized ps) (normObjsStr ps ++ [']'])
      (afterInst_mkNormalized ps hsafe), afterInst_mkNormalized ps hsafe]
  have hpre : preFinal (mkNormalized ps) = mkNormalized ps := by
    unfold preFinal
    rw [hrecon]
    rw [show branchStage (mkNormalized ps) = mkNormalized ps from branchStage_bracket _]
    rw [midStages_mkNormalized ps hsafe, transcriptStage_mkNormalized ps hsafe]
  rw [hpre, finalStage_mkNormalized]

/-- Claim C7: the normalizer is idempotent on canonical well-formed
array-of-objects strings: for every list of (query, summary) value pairs over
the safe alphabet, normalizing the canonical string once more does not change
the result. -/
theorem c7_idempotent (ps : List (List Char × List Char)) (hsafe : safePairs ps = true) :
    (cleanResponse (mkCanonical ps)).bind cleanResponse = cleanResponse (mkCanonical ps) := by
  rw [clean_canonical ps hsafe, Option.some_bind, clean_normalized ps hsafe]

/-- Witness for claim C7 at a concrete canonical string. -/
theorem c7_witness :
    (cleanResponse (mkCanonical [(cs "q1", cs "s1")])).bind cleanResponse =
      cleanResponse (mkCanonical [(cs "q1", cs "s1")]) :=
  c7_idempotent [(cs "q1", cs "s1")] (by decide)
